import Mathlib

/-!
# Verification of the fast-pypi storage backends

A shallow embedding of the storage-backend core of the `fast-pypi` package
index server: the project-name normalizer (`fast_pypi/pypi/utils.py`), the
local filesystem backend (`fast_pypi/backends/localfs/interface.py`) and the
Azure blob backend (`fast_pypi/backends/azure_blob/interface.py`), together
with theorems settling the specification claims about them.

Modelling conventions:
* Python `str` is modelled as `List Char` (`Str`); comparison of strings is
  lexicographic by code point, as in Python.
* `bytes` is modelled as `List Nat`.
* The filesystem / blob container is explicit state (`LFSState`, `AzState`);
  each operation takes the state and returns its result together with the
  state after the call.  A raised exception is an `Option`/`Except` error
  value paired with the state at the moment of the raise.
* Library primitives that live outside the repository (hashlib's SHA-256,
  UTF-8 encode, `bytes.decode('utf-8').strip()`) are abstracted as a
  parameter record `Prims`; theorems assume only the properties of those
  primitives they need (e.g. that decoding an encoded digest gives the
  digest back), and witnesses instantiate them concretely.
-/

/-- Python `str`, modelled as its list of characters. -/
abbrev Str := List Char

/-- Python `bytes`, modelled as a list of byte values. -/
abbrev Bytes := List Nat

/-- Coerce a Lean string literal to the `Str` model. -/
def str (s : String) : Str := s.data

/-! ## Python string primitives used by the backends -/

/-- `s.startswith(p)` — `startsB s p` is true iff `p` is an initial segment of `s`. -/
def startsB : Str → Str → Bool
  | _, [] => true
  | [], _ :: _ => false
  | c :: cs, d :: ds => c = d && startsB cs ds

/-- `s.endswith(t)` — true iff `t` is a final segment of `s`. -/
def endsB (s t : Str) : Bool := startsB s.reverse t.reverse

/-- `s.removeprefix(p)`. -/
def dropPre (s p : Str) : Str := if startsB s p then s.drop p.length else s

/-- `r.split('/', maxsplit=1)` restricted to the use in the blob backend:
returns the parts before and after the first `'/'`, or `none` when `r`
contains no `'/'` (in which case the Python code's `[1]` raises `IndexError`). -/
def splitSlash : Str → Option (Str × Str)
  | [] => none
  | c :: rest =>
    if c = '/' then some ([], rest)
    else (splitSlash rest).map (fun p => (c :: p.1, p.2))

/-- Python string `<`: lexicographic comparison by code point. -/
def strLtB : Str → Str → Bool
  | [], [] => false
  | [], _ :: _ => true
  | _ :: _, [] => false
  | a :: as, b :: bs => if a < b then true else if b < a then false else strLtB as bs

/-- Python string `<=` (as used by `sorted`: `a` may stay before `b` iff `¬ b < a`). -/
def strLeB (a b : Str) : Bool := !(strLtB b a)

/-- ASCII lowercasing of one character, as `str.lower` does on ASCII input
(code points 65–90 map to 97–122, everything else is unchanged). -/
def asciiLower (c : Char) : Char :=
  if 65 ≤ c.toNat && c.toNat ≤ 90 then Char.ofNat (c.toNat + 32) else c

/-- The characters collapsed by the normalizer's pattern `[-_.]+`. -/
def isSep (c : Char) : Bool := c = '-' || c = '_' || c = '.'

/-- Helper for `collapseSeps`: the flag records whether we are inside a
run of separators whose single `-` has already been emitted. -/
def collapseAux : Bool → Str → Str
  | _, [] => []
  | inRun, c :: rest =>
    if isSep c then
      if inRun then collapseAux true rest else '-' :: collapseAux true rest
    else c :: collapseAux false rest

/-- `re.sub(r'[-_.]+', '-', s)`: replace every maximal run of `-`/`_`/`.`
by a single `-`. -/
def collapseSeps (l : Str) : Str := collapseAux false l

/-- `pypi_normalize` (`fast_pypi/pypi/utils.py`): collapse separator runs to a
single `-`, then lowercase. -/
def pypiNormalize (name : Str) : Str := (collapseSeps name).map asciiLower

/-! ## Stable sort by a boolean "may stay before" predicate (models Python `sorted`). -/

/-- Insert `a` into `l`, keeping it after any head it need not precede. -/
def insertLe (le : α → α → Bool) (a : α) : List α → List α
  | [] => [a]
  | b :: bs => if le a b then a :: b :: bs else b :: insertLe le a bs

/-- Insertion sort by `le`; models `sorted(l, key=...)` once `le` encodes the key order. -/
def sortByLe (le : α → α → Bool) : List α → List α
  | [] => []
  | a :: as => insertLe le a (sortByLe le as)

/-! ## Library primitives abstracted as parameters -/

/-- Primitives the backends use that live outside the repository:
`hashlib.sha256(b).hexdigest()`, `str.encode('utf-8')` and
`bytes.decode('utf-8').strip()`.  Theorems state the properties of these
they rely on as hypotheses; witnesses instantiate them concretely. -/
structure Prims where
  sha256hex : Bytes → Str
  utf8Encode : Str → Bytes
  decodeStrip : Bytes → Str

/-- Python `sha256_digest or fallback` on a `str | None` value: `None` and
the empty string are falsy. -/
def pyOrElse (d : Option Str) (fallback : Str) : Str :=
  match d with
  | none => fallback
  | some s => if s = [] then fallback else s

/-! ## Shared backend data model (`fast_pypi/backends/interface.py`) -/

/-- `FileContents`: a downloaded artifact with its digest. -/
structure FileContents where
  filename : Str
  content : Bytes
  sha256_digest : Str
deriving DecidableEq, Repr

/-- `ProjectFileInfo`: one listing entry.  `last_modified` is wall-clock
metadata with no algorithmic content and is omitted from the model. -/
structure ProjectFileInfo where
  project_name : Str
  version : Str
  filename : Str
  size : Nat
deriving DecidableEq, Repr

/-- `ProjectFileExistsError(filename=..., project_name=...)`. -/
structure ProjectFileExistsError where
  filename : Str
  project_name : Str
deriving DecidableEq, Repr

/-! ## Local filesystem backend state -/

/-- One regular file in the backend's directory tree:
`<root>/<projDir>/<version>/<name>` with byte contents `content`.
Digest sidecars are ordinary files whose `name` ends in `.sha256`. -/
structure LFSFile where
  projDir : Str
  version : Str
  name : Str
  content : Bytes
deriving DecidableEq, Repr

/-- The directory tree under the configured `root_path`: which project
directories and version directories exist, and the regular files. -/
structure LFSState where
  projDirs : List Str
  verDirs : List (Str × Str)
  files : List LFSFile
deriving DecidableEq, Repr

/-- Look up the contents of the file at `<root>/<pd>/<v>/<f>`. -/
def LFSState.find (s : LFSState) (pd v f : Str) : Option Bytes :=
  (s.files.find? (fun e => e.projDir = pd && e.version = v && e.name = f)).map
    (fun e => e.content)

/-- Write a file (create or overwrite) at `<root>/<pd>/<v>/<f>`. -/
def LFSState.write (s : LFSState) (pd v f : Str) (c : Bytes) : LFSState :=
  { s with
    files := ⟨pd, v, f, c⟩ ::
      s.files.filter (fun e => !(e.projDir = pd && e.version = v && e.name = f)) }

/-- `os.remove` of `<root>/<pd>/<v>/<f>` (the caller checks existence). -/
def LFSState.erase (s : LFSState) (pd v f : Str) : LFSState :=
  { s with
    files := s.files.filter (fun e => !(e.projDir = pd && e.version = v && e.name = f)) }

/-- `os.makedirs(root/pd/v, exist_ok=True)`. -/
def LFSState.makedirs (s : LFSState) (pd v : Str) : LFSState :=
  { s with
    projDirs := if s.projDirs.contains pd then s.projDirs else pd :: s.projDirs
    verDirs := if s.verDirs.contains (pd, v) then s.verDirs else (pd, v) :: s.verDirs }

/-- Well-formedness of a directory tree: every file lies in an existing
version directory, every version directory in an existing project
directory, and no two files share a path. -/
def LFSState.wf (s : LFSState) : Prop :=
  (∀ e ∈ s.files, (e.projDir, e.version) ∈ s.verDirs) ∧
  (∀ pv ∈ s.verDirs, pv.1 ∈ s.projDirs) ∧
  s.files.Pairwise (fun a b => ¬(a.projDir = b.projDir ∧ a.version = b.version ∧ a.name = b.name))

instance (s : LFSState) : Decidable s.wf := by
  unfold LFSState.wf; infer_instance

/-! ## Local filesystem backend operations
(`fast_pypi/backends/localfs/interface.py`) -/

namespace LocalFS

/-- `LocalFSBackend.get_file_contents`.  Returns the result and the state
after the call (the sidecar may be written by the lazy self-heal path). -/
def getFileContents (π : Prims) (s : LFSState) (projectName version filename : Str) :
    Option FileContents × LFSState :=
  let pd := pypiNormalize projectName
  match s.find pd version filename with
  | none => (none, s)
  | some content =>
    match s.find pd version (filename ++ str ".sha256") with
    | some sidecarBytes =>
      (some ⟨filename, content, π.decodeStrip sidecarBytes⟩, s)
    | none =>
      let d := π.sha256hex content
      (some ⟨filename, content, d⟩,
        s.write pd version (filename ++ str ".sha256") (π.utf8Encode d))

/-- `LocalFSBackend.upload_file`.  On the conflict path the function raises
`ProjectFileExistsError` (first component `some err`); otherwise it writes
the content file and then the sidecar. -/
def uploadFile (π : Prims) (allowOverwrite : Bool) (s : LFSState)
    (projectName version filename : Str) (content : Bytes) (digest : Option Str) :
    Option ProjectFileExistsError × LFSState :=
  let pd := pypiNormalize projectName
  let s1 := s.makedirs pd version
  if !allowOverwrite && (s1.find pd version filename).isSome then
    (some ⟨filename, projectName⟩, s1)
  else
    let s2 := s1.write pd version filename content
    let d := pyOrElse digest (π.sha256hex content)
    (none, s2.write pd version (filename ++ str ".sha256") (π.utf8Encode d))

/-- The listing sort key order `(fi.project_name, fi.version, fi.filename)`
of `sorted(..., key=...)`, as the boolean "may stay before" predicate:
`a` may stay before `b` iff the key of `b` is not smaller than the key of
`a` (lexicographic tuple comparison with Python string `<`). -/
def pinfoKeyLe (a b : ProjectFileInfo) : Bool :=
  strLeB a.project_name b.project_name &&
    (!(strLeB b.project_name a.project_name) ||
      (strLeB a.version b.version &&
        (!(strLeB b.version a.version) || strLeB a.filename b.filename)))

/-- `LocalFSBackend.list_files_for_project`.  NOTE: unlike every other
operation of this backend, the source resolves the project directory from
the *raw* `project_name` (interface.py line 78), without `pypi_normalize`. -/
def listFilesForProject (s : LFSState) (projectName : Str) : List ProjectFileInfo :=
  if s.projDirs.contains projectName then
    sortByLe pinfoKeyLe
      ((s.verDirs.filter (fun pv => pv.1 = projectName)).flatMap
        (fun pv =>
          (s.files.filter (fun e =>
              e.projDir = projectName && e.version = pv.2 &&
              !(endsB e.name (str ".sha256")))).map
            (fun e => ⟨projectName, e.version, e.name, e.content.length⟩)))
  else []

/-- `LocalFSBackend.delete_project_version`: `rmtree` of the version
directory when it exists. -/
def deleteProjectVersion (s : LFSState) (projectName version : Str) :
    Bool × LFSState :=
  let pd := pypiNormalize projectName
  if s.verDirs.contains (pd, version) then
    (true,
      { s with
        verDirs := s.verDirs.filter (fun pv => !(pv = (pd, version)))
        files := s.files.filter (fun e => !(e.projDir = pd && e.version = version)) })
  else (false, s)

/-- `LocalFSBackend.delete_project_version_file`: removes the content file,
then unconditionally `os.remove`s the sidecar — which raises
`FileNotFoundError` (modelled as `Except.error ()`) when the sidecar is
absent, after the content file is already gone. -/
def deleteProjectVersionFile (s : LFSState) (projectName version filename : Str) :
    Except Unit Bool × LFSState :=
  let pd := pypiNormalize projectName
  match s.find pd version filename with
  | none => (Except.ok false, s)
  | some _ =>
    let s1 := s.erase pd version filename
    match s1.find pd version (filename ++ str ".sha256") with
    | none => (Except.error (), s1)
    | some _ => (Except.ok true, s1.erase pd version (filename ++ str ".sha256"))

end LocalFS

/-! ## Azure blob backend state
(`fast_pypi/backends/azure_blob/interface.py`) -/

/-- One blob: its full name (the configured base path included) and its
content; `sha` is the `'sha256'` key of the blob metadata, the only
metadata key the backend ever reads or writes. -/
structure Blob where
  name : Str
  content : Bytes
  sha : Option Str
deriving DecidableEq, Repr

/-- The blob container. -/
structure AzState where
  blobs : List Blob
deriving DecidableEq, Repr

/-- `container_client.get_blob_client(bn)` + `exists()`/`download`. -/
def AzState.findBlob (s : AzState) (bn : Str) : Option Blob :=
  s.blobs.find? (fun b => b.name = bn)

/-- `upload_blob(data=..., overwrite=True-or-new, metadata={'sha256': d})`. -/
def AzState.writeBlob (s : AzState) (bn : Str) (c : Bytes) (d : Str) : AzState :=
  ⟨⟨bn, c, some d⟩ :: s.blobs.filter (fun b => !(b.name = bn))⟩

/-- `set_blob_metadata(metadata={'sha256': d})` on an existing blob. -/
def AzState.setMeta (s : AzState) (bn : Str) (d : Str) : AzState :=
  ⟨s.blobs.map (fun b => if b.name = bn then { b with sha := some d } else b)⟩

/-- The container holds at most one blob per name. -/
def AzState.wf (s : AzState) : Prop :=
  s.blobs.Pairwise (fun a b => ¬(a.name = b.name))

instance (s : AzState) : Decidable s.wf := by
  unfold AzState.wf; infer_instance

namespace Azure

/-- The blob name `f'{base_path}{project_name}/{version}/{filename}'`. -/
def blobName (base pn v fn : Str) : Str :=
  base ++ pn ++ str "/" ++ v ++ str "/" ++ fn

/-- `AzureBlobBackend.get_file_contents`. -/
def getFileContents (π : Prims) (s : AzState) (base pn v fn : Str) :
    Option FileContents × AzState :=
  let bn := blobName base pn v fn
  match s.findBlob bn with
  | none => (none, s)
  | some b =>
    match b.sha with
    | some d => (some ⟨fn, b.content, d⟩, s)
    | none =>
      let d := π.sha256hex b.content
      (some ⟨fn, b.content, d⟩, s.setMeta bn d)

/-- `AzureBlobBackend.upload_file`. -/
def uploadFile (π : Prims) (allowOverwrite : Bool) (s : AzState)
    (base pn v fn : Str) (content : Bytes) (digest : Option Str) :
    Option ProjectFileExistsError × AzState :=
  let bn := blobName base pn v fn
  if !allowOverwrite && (s.findBlob bn).isSome then
    (some ⟨fn, pn⟩, s)
  else
    (none, s.writeBlob bn content (pyOrElse digest (π.sha256hex content)))

/-- Turn the (already name-sorted, already suffix-filtered) blobs into
listing entries: split the name after the project's path segment into
`(version, filename)` on the first `'/'`; a remainder with no `'/'` makes
the Python `split('/', maxsplit=1)[1]` raise `IndexError`. -/
def entriesOf (namePre : Str) (pn : Str) : List Blob → Except Unit (List ProjectFileInfo)
  | [] => Except.ok []
  | b :: rest =>
    match splitSlash (dropPre b.name namePre) with
    | none => Except.error ()
    | some (v, f) =>
      (entriesOf namePre pn rest).map
        (fun l => ⟨pn, v, f, b.content.length⟩ :: l)

/-- `AzureBlobBackend.list_files_for_project`: flat listing under the
project's name path segment, sorted by the *full blob name*, keeping only
blobs whose name does not end in `.sha256` and ends in `.whl` or `.tar.gz`. -/
def listFilesForProject (s : AzState) (base pn : Str) :
    Except Unit (List ProjectFileInfo) :=
  let namePre := base ++ pn ++ str "/"
  entriesOf namePre pn
    ((sortByLe (fun a b => strLeB a.name b.name)
        (s.blobs.filter (fun b => startsB b.name namePre))).filter
      (fun b =>
        !(endsB b.name (str ".sha256")) &&
        (endsB b.name (str ".whl") || endsB b.name (str ".tar.gz"))))

/-- `AzureBlobBackend.delete_project_version`: list the blobs under the
version's name path segment; if none, report `False`; else delete each. -/
def deleteProjectVersion (s : AzState) (base pn v : Str) : Bool × AzState :=
  let namePre := base ++ pn ++ str "/" ++ v ++ str "/"
  if (s.blobs.filter (fun b => startsB b.name namePre)).isEmpty then
    (false, s)
  else
    (true, ⟨s.blobs.filter (fun b => !(startsB b.name namePre))⟩)

/-- `AzureBlobBackend.delete_project_version_file`: existence check, then a
single blob delete. -/
def deleteProjectVersionFile (s : AzState) (base pn v fn : Str) : Bool × AzState :=
  let bn := blobName base pn v fn
  match s.findBlob bn with
  | none => (false, s)
  | some _ => (true, ⟨s.blobs.filter (fun b => !(b.name = bn))⟩)

end Azure

/-! ## Concrete fixtures used by witnesses and counterexamples -/

/-- Concrete primitives for witnesses: a dummy digest function producing
digit strings, with byte-per-character encode/decode (so decoding an
encoded string is the identity). -/
def wPrims : Prims where
  sha256hex := fun b => 'h' :: b.map (fun n => Char.ofNat (48 + n % 10))
  utf8Encode := fun s => s.map Char.toNat
  decodeStrip := fun b => b.map Char.ofNat

/-- Concrete primitives whose digest function, like real SHA-256 hex
digests, always returns a 64-character string. -/
def wPrims64 : Prims where
  sha256hex := fun _ => List.replicate 64 'a'
  utf8Encode := fun s => s.map Char.toNat
  decodeStrip := fun b => b.map Char.ofNat

/-- The empty directory tree. -/
def lfsEmpty : LFSState := ⟨[], [], []⟩

/-- The empty blob container. -/
def azEmpty : AzState := ⟨[]⟩

/-! ## Digest–content agreement invariants (claim C2) -/

/-- Digest–content agreement for the blob container: whenever a blob
carries `sha256` metadata, it equals the SHA-256 hex digest of the blob's
current bytes. -/
def AzState.digestInv (π : Prims) (s : AzState) : Prop :=
  ∀ b ∈ s.blobs, ∀ d, b.sha = some d → d = π.sha256hex b.content

/-- Digest–content agreement for the directory tree: whenever an artifact
file (name not ending in `.sha256`) has a sidecar, the sidecar's decoded
contents equal the SHA-256 hex digest of the artifact's current bytes. -/
def LFSState.digestInv (π : Prims) (s : LFSState) : Prop :=
  ∀ e ∈ s.files, endsB e.name (str ".sha256") = false →
    ∀ sb, s.find e.projDir e.version (e.name ++ str ".sha256") = some sb →
      π.decodeStrip sb = π.sha256hex e.content


/-! ## Order and sorting lemmas -/

theorem strLtB_cons {x y : Char} {xs ys : Str} :
    strLtB (x :: xs) (y :: ys) = true ↔ x < y ∨ (x = y ∧ strLtB xs ys = true) := by
  simp only [strLtB]
  by_cases hxy : x < y
  · simp [hxy]
  · by_cases hyx : y < x
    · have hne : x ≠ y := fun he => absurd (he ▸ hyx) (lt_irrefl x)
      simp [hxy, hyx, hne]
    · have heq : x = y := le_antisymm (not_lt.mp hyx) (not_lt.mp hxy)
      simp [hxy, hyx, heq]

theorem strLtB_trans {a b c : Str} (h1 : strLtB a b = true) (h2 : strLtB b c = true) :
    strLtB a c = true := by
  induction a generalizing b c with
  | nil =>
    cases b with
    | nil => simp [strLtB] at h1
    | cons y ys =>
      cases c with
      | nil => simp [strLtB] at h2
      | cons z zs => simp [strLtB]
  | cons x xs ih =>
    cases b with
    | nil => simp [strLtB] at h1
    | cons y ys =>
      cases c with
      | nil => simp [strLtB] at h2
      | cons z zs =>
        rcases strLtB_cons.mp h1 with hxy | ⟨hxy, hrest1⟩ <;>
          rcases strLtB_cons.mp h2 with hyz | ⟨hyz, hrest2⟩
        · exact strLtB_cons.mpr (Or.inl (lt_trans hxy hyz))
        · exact strLtB_cons.mpr (Or.inl (hyz ▸ hxy))
        · exact strLtB_cons.mpr (Or.inl (hxy ▸ hyz))
        · exact strLtB_cons.mpr (Or.inr ⟨hxy.trans hyz, ih hrest1 hrest2⟩)

theorem strLtB_asymm {a b : Str} (h1 : strLtB a b = true) (h2 : strLtB b a = true) :
    False := by
  induction a generalizing b with
  | nil =>
    cases b with
    | nil => simp [strLtB] at h1
    | cons y ys => simp [strLtB] at h2
  | cons x xs ih =>
    cases b with
    | nil => simp [strLtB] at h1
    | cons y ys =>
      rcases strLtB_cons.mp h1 with hxy | ⟨hxy, hrest1⟩ <;>
        rcases strLtB_cons.mp h2 with hyx | ⟨hyx, hrest2⟩
      · exact absurd (lt_trans hxy hyx) (lt_irrefl x)
      · exact absurd (hyx ▸ hxy) (lt_irrefl y)
      · exact absurd (hxy ▸ hyx) (lt_irrefl y)
      · exact ih hrest1 hrest2

theorem strLtB_conn {a b : Str} (h1 : strLtB a b = false) (h2 : strLtB b a = false) :
    a = b := by
  induction a generalizing b with
  | nil =>
    cases b with
    | nil => rfl
    | cons y ys => simp [strLtB] at h1
  | cons x xs ih =>
    cases b with
    | nil => simp [strLtB] at h2
    | cons y ys =>
      by_cases hxy : x < y
      · have : strLtB (x :: xs) (y :: ys) = true := strLtB_cons.mpr (Or.inl hxy)
        exact absurd this (by simp [h1])
      · by_cases hyx : y < x
        · have : strLtB (y :: ys) (x :: xs) = true := strLtB_cons.mpr (Or.inl hyx)
          exact absurd this (by simp [h2])
        · have heq : x = y := le_antisymm (not_lt.mp hyx) (not_lt.mp hxy)
          subst heq
          have hr1 : strLtB xs ys = false := by
            cases hr : strLtB xs ys with
            | false => rfl
            | true =>
              have : strLtB (x :: xs) (x :: ys) = true := strLtB_cons.mpr (Or.inr ⟨rfl, hr⟩)
              exact absurd this (by simp [h1])
          have hr2 : strLtB ys xs = false := by
            cases hr : strLtB ys xs with
            | false => rfl
            | true =>
              have : strLtB (x :: ys) (x :: xs) = true := strLtB_cons.mpr (Or.inr ⟨rfl, hr⟩)
              exact absurd this (by simp [h2])
          rw [ih hr1 hr2]

theorem strLeB_iff {a b : Str} : strLeB a b = true ↔ strLtB b a = false := by
  simp [strLeB]

theorem strLeB_total (a b : Str) : strLeB a b = true ∨ strLeB b a = true := by
  cases h : strLtB b a with
  | false => exact Or.inl (strLeB_iff.mpr h)
  | true =>
    cases h2 : strLtB a b with
    | false => exact Or.inr (strLeB_iff.mpr h2)
    | true => exact absurd (strLtB_asymm h h2) not_false

theorem strLeB_trans {a b c : Str} (h1 : strLeB a b = true) (h2 : strLeB b c = true) :
    strLeB a c = true := by
  rw [strLeB_iff] at h1 h2 ⊢
  cases hbc : strLtB b c with
  | false =>
    have hcb : c = b := strLtB_conn h2 hbc
    exact hcb ▸ h1
  | true =>
    cases hab : strLtB a b with
    | false =>
      have hab' : a = b := strLtB_conn hab h1
      exact hab' ▸ h2
    | true =>
      cases hca : strLtB c a with
      | false => rfl
      | true => exact absurd (strLtB_trans hca hab) (by simp [h2])

theorem strLeB_refl (a : Str) : strLeB a a = true := by
  rcases strLeB_total a a with h | h <;> exact h

/-- Lexicographic comparison ignores an equal leading segment. -/
theorem strLtB_append_same (p x y : Str) :
    strLtB (p ++ x) (p ++ y) = strLtB x y := by
  induction p with
  | nil => simp
  | cons c cs ih => simp [strLtB, ih]

theorem mem_insertLe {le : α → α → Bool} {a x : α} {l : List α} :
    x ∈ insertLe le a l ↔ x = a ∨ x ∈ l := by
  induction l with
  | nil => simp [insertLe]
  | cons b bs ih =>
    simp only [insertLe]
    split
    · simp [or_comm, or_assoc, or_left_comm]
    · simp only [List.mem_cons, ih]
      tauto

theorem pairwise_insertLe {le : α → α → Bool}
    (htrans : ∀ x y z, le x y = true → le y z = true → le x z = true)
    (htotal : ∀ x y, le x y = true ∨ le y x = true)
    {a : α} {l : List α} (h : l.Pairwise (fun x y => le x y = true)) :
    (insertLe le a l).Pairwise (fun x y => le x y = true) := by
  induction l with
  | nil => simp [insertLe]
  | cons b bs ih =>
    rcases List.pairwise_cons.mp h with ⟨hb, hbs⟩
    simp only [insertLe]
    split
    · rename_i hab
      refine List.pairwise_cons.mpr ⟨?_, h⟩
      intro x hx
      rcases List.mem_cons.mp hx with rfl | hx
      · exact hab
      · exact htrans a b x hab (hb x hx)
    · rename_i hab
      have hba : le b a = true := by
        rcases htotal a b with h' | h'
        · exact absurd h' hab
        · exact h'
      refine List.pairwise_cons.mpr ⟨?_, ih hbs⟩
      intro x hx
      rcases mem_insertLe.mp hx with rfl | hx
      · exact hba
      · exact hb x hx

theorem sorted_sortByLe {le : α → α → Bool}
    (htrans : ∀ x y z, le x y = true → le y z = true → le x z = true)
    (htotal : ∀ x y, le x y = true ∨ le y x = true)
    (l : List α) : (sortByLe le l).Pairwise (fun x y => le x y = true) := by
  induction l with
  | nil => simp [sortByLe]
  | cons a as ih => exact pairwise_insertLe htrans htotal ih

theorem mem_sortByLe {le : α → α → Bool} {x : α} {l : List α} :
    x ∈ sortByLe le l ↔ x ∈ l := by
  induction l with
  | nil => simp [sortByLe]
  | cons a as ih => simp [sortByLe, mem_insertLe, ih]

/-! ## Filesystem-state lemmas -/

theorem find?_filter_of_imp {p q : α → Bool} (l : List α)
    (h : ∀ a, q a = true → p a = true) :
    (l.filter p).find? q = l.find? q := by
  induction l with
  | nil => rfl
  | cons a l ih =>
    by_cases hq : q a = true
    · have hp := h a hq
      simp [List.filter_cons, hp, List.find?_cons, hq, ih]
    · by_cases hp : p a = true <;>
        simp [List.filter_cons, hp, List.find?_cons, hq, ih]

theorem find?_filter_none {p q : α → Bool} (l : List α)
    (h : ∀ a, q a = true → p a = false) :
    (l.filter p).find? q = none := by
  induction l with
  | nil => rfl
  | cons a l ih =>
    by_cases hp : p a = true
    · have hq : q a = false := by
        cases hqa : q a with
        | false => rfl
        | true => rw [h a hqa] at hp; exact absurd hp (by simp)
      simp [List.filter_cons, hp, List.find?_cons, hq, ih]
    · simp [List.filter_cons, hp, ih]

theorem append_sha_len : (str ".sha256").length = 7 := rfl

theorem sha_append_ne (f : Str) : ¬(f ++ str ".sha256" = f) := by
  intro h
  have hl := congrArg List.length h
  rw [List.length_append, append_sha_len] at hl
  omega

theorem sha_append_inj {f g : Str} (h : f ++ str ".sha256" = g ++ str ".sha256") :
    f = g := List.append_cancel_right h

theorem LFSState.find_write_same (s : LFSState) (pd v f : Str) (c : Bytes) :
    (s.write pd v f c).find pd v f = some c := by
  simp [LFSState.write, LFSState.find, List.find?_cons]

theorem LFSState.find_write_ne (s : LFSState) {pd v f pd' v' f' : Str} (c : Bytes)
    (h : ¬(pd' = pd ∧ v' = v ∧ f' = f)) :
    (s.write pd v f c).find pd' v' f' = s.find pd' v' f' := by
  unfold LFSState.write LFSState.find
  simp only
  rw [List.find?_cons_of_neg _ (by
    intro hcon
    simp only [Bool.and_eq_true, decide_eq_true_eq] at hcon
    exact h ⟨hcon.1.1.symm, hcon.1.2.symm, hcon.2.symm⟩)]
  exact congrArg _ (find?_filter_of_imp s.files (by
    intro e he
    simp only [decide_eq_true_eq, Bool.and_eq_true] at he
    simp only [Bool.not_eq_true', Bool.and_eq_false_iff]
    by_cases h1 : e.projDir = pd
    · by_cases h2 : e.version = v
      · by_cases h3 : e.name = f
        · exact absurd ⟨he.1.1 ▸ h1, he.1.2 ▸ h2, he.2 ▸ h3⟩ h
        · exact Or.inr (by simpa using h3)
      · exact Or.inl (Or.inr (by simpa using h2))
    · exact Or.inl (Or.inl (by simpa using h1))))

theorem LFSState.find_makedirs (s : LFSState) (pd v pd' v' f' : Str) :
    (s.makedirs pd v).find pd' v' f' = s.find pd' v' f' := rfl

theorem LFSState.find_erase_same (s : LFSState) (pd v f : Str) :
    (s.erase pd v f).find pd v f = none := by
  unfold LFSState.erase LFSState.find
  simp only
  rw [find?_filter_none s.files (by
    intro e he
    simp only [Bool.and_eq_true, decide_eq_true_eq] at he
    simp [he.1.1, he.1.2, he.2])]
  rfl

theorem LFSState.find_erase_ne (s : LFSState) {pd v f pd' v' f' : Str}
    (h : ¬(pd' = pd ∧ v' = v ∧ f' = f)) :
    (s.erase pd v f).find pd' v' f' = s.find pd' v' f' := by
  unfold LFSState.erase LFSState.find
  simp only
  exact congrArg _ (find?_filter_of_imp s.files (by
    intro e he
    simp only [decide_eq_true_eq, Bool.and_eq_true] at he
    simp only [Bool.not_eq_true', Bool.and_eq_false_iff]
    by_cases h1 : e.projDir = pd
    · by_cases h2 : e.version = v
      · by_cases h3 : e.name = f
        · exact absurd ⟨he.1.1 ▸ h1, he.1.2 ▸ h2, he.2 ▸ h3⟩ h
        · exact Or.inr (by simpa using h3)
      · exact Or.inl (Or.inr (by simpa using h2))
    · exact Or.inl (Or.inl (by simpa using h1))))

/-! ## Blob-container lemmas -/

theorem AzState.findBlob_write_same (s : AzState) (bn : Str) (c : Bytes) (d : Str) :
    (s.writeBlob bn c d).findBlob bn = some ⟨bn, c, some d⟩ := by
  simp [AzState.writeBlob, AzState.findBlob, List.find?_cons]

theorem AzState.findBlob_write_ne (s : AzState) {bn bn' : Str} (c : Bytes) (d : Str)
    (h : ¬(bn' = bn)) :
    (s.writeBlob bn c d).findBlob bn' = s.findBlob bn' := by
  unfold AzState.writeBlob AzState.findBlob
  simp only
  rw [List.find?_cons_of_neg _ (by
    intro hcon
    simp only [decide_eq_true_eq] at hcon
    exact h hcon.symm)]
  exact find?_filter_of_imp s.blobs (by
    intro b hb
    simp only [decide_eq_true_eq] at hb
    simp [hb, h])

theorem find?_map_setMeta (bn d : Str) (l : List Blob) {b : Blob}
    (h : l.find? (fun x => x.name = bn) = some b) :
    (l.map (fun x => if x.name = bn then { x with sha := some d } else x)).find?
      (fun x => x.name = bn) = some { b with sha := some d } := by
  induction l with
  | nil => simp at h
  | cons x xs ih =>
    rw [List.map_cons]
    by_cases hx : x.name = bn
    · rw [List.find?_cons_of_pos _ (by simp [hx])] at h
      have hb : x = b := Option.some_inj.mp h
      subst hb
      rw [if_pos hx]
      exact List.find?_cons_of_pos _ (by simp [hx])
    · rw [List.find?_cons_of_neg _ (by simp [hx])] at h
      rw [if_neg hx, List.find?_cons_of_neg _ (by simp [hx])]
      exact ih h

theorem AzState.findBlob_setMeta_same (s : AzState) {bn : Str} {b : Blob} (d : Str)
    (h : s.findBlob bn = some b) :
    (s.setMeta bn d).findBlob bn = some { b with sha := some d } := by
  unfold AzState.findBlob at h ⊢
  unfold AzState.setMeta
  exact find?_map_setMeta bn d s.blobs h

/-! ## Normalization lemmas -/

theorem toNat_ofNat_valid (n : Nat) (h : n.isValidChar) : (Char.ofNat n).toNat = n := by
  unfold Char.ofNat
  rw [dif_pos h]
  rfl

theorem char_ne_of_toNat_ne {a b : Char} (h : ¬(a.toNat = b.toNat)) : ¬(a = b) :=
  fun he => h (congrArg Char.toNat he)

theorem lower_valid {c : Char} (h65 : 65 ≤ c.toNat) (h90 : c.toNat ≤ 90) :
    (c.toNat + 32).isValidChar :=
  Or.inl (by omega)

theorem asciiLower_toNat {c : Char} (h65 : 65 ≤ c.toNat) (h90 : c.toNat ≤ 90) :
    (asciiLower c).toNat = c.toNat + 32 := by
  unfold asciiLower
  rw [if_pos (by simp only [Bool.and_eq_true, decide_eq_true_eq]; omega)]
  exact toNat_ofNat_valid _ (lower_valid h65 h90)

theorem asciiLower_of_not {c : Char} (h : ¬(65 ≤ c.toNat ∧ c.toNat ≤ 90)) :
    asciiLower c = c := by
  unfold asciiLower
  rw [if_neg (by simp only [Bool.and_eq_true, decide_eq_true_eq]; omega)]

theorem asciiLower_idem (c : Char) : asciiLower (asciiLower c) = asciiLower c := by
  by_cases h : 65 ≤ c.toNat ∧ c.toNat ≤ 90
  · have ht := asciiLower_toNat h.1 h.2
    exact asciiLower_of_not (by omega)
  · rw [asciiLower_of_not h, asciiLower_of_not h]

theorem isSep_false_of_toNat {c : Char} (h45 : ¬(c.toNat = 45)) (h95 : ¬(c.toNat = 95))
    (h46 : ¬(c.toNat = 46)) : isSep c = false := by
  unfold isSep
  simp only [Bool.or_eq_false_iff, decide_eq_false_iff_not]
  refine ⟨⟨char_ne_of_toNat_ne ?_, char_ne_of_toNat_ne ?_⟩, char_ne_of_toNat_ne ?_⟩
  · rw [show ('-').toNat = 45 from rfl]; exact h45
  · rw [show ('_').toNat = 95 from rfl]; exact h95
  · rw [show ('.').toNat = 46 from rfl]; exact h46

theorem isSep_asciiLower (c : Char) : isSep (asciiLower c) = isSep c := by
  by_cases h : 65 ≤ c.toNat ∧ c.toNat ≤ 90
  · have ht := asciiLower_toNat h.1 h.2
    have h1 : isSep (asciiLower c) = false :=
      isSep_false_of_toNat (by omega) (by omega) (by omega)
    have h2 : isSep c = false :=
      isSep_false_of_toNat (by omega) (by omega) (by omega)
    rw [h1, h2]
  · rw [asciiLower_of_not h]

theorem collapseAux_map_lower (flag : Bool) (l : Str) :
    collapseAux flag (l.map asciiLower) = (collapseAux flag l).map asciiLower := by
  induction l generalizing flag with
  | nil => rfl
  | cons c rest ih =>
    rw [List.map_cons, collapseAux, collapseAux]
    by_cases hsep : isSep c = true
    · rw [if_pos (by rw [isSep_asciiLower]; exact hsep), if_pos hsep]
      cases flag with
      | true => exact ih true
      | false =>
        show '-' :: collapseAux true (List.map asciiLower rest) =
          List.map asciiLower ('-' :: collapseAux true rest)
        rw [List.map_cons, show asciiLower '-' = '-' from rfl]
        exact congrArg _ (ih true)
    · rw [if_neg (by rw [isSep_asciiLower]; exact hsep), if_neg hsep, List.map_cons]
      exact congrArg _ (ih false)

theorem collapseSeps_map_lower (l : Str) :
    collapseSeps (l.map asciiLower) = (collapseSeps l).map asciiLower :=
  collapseAux_map_lower false l

theorem collapseAux_true_head (l : Str) {c : Char} {cs : Str}
    (h : collapseAux true l = c :: cs) : isSep c = false := by
  induction l with
  | nil => simp [collapseAux] at h
  | cons d rest ih =>
    rw [collapseAux] at h
    by_cases hsep : isSep d = true
    · rw [if_pos hsep, if_pos rfl] at h
      exact ih h
    · rw [if_neg hsep] at h
      cases h
      simpa using hsep

theorem collapseAux_flag_of_head_not (f1 f2 : Bool) (l : Str)
    (hl : ∀ d ds, l = d :: ds → isSep d = false) :
    collapseAux f1 l = collapseAux f2 l := by
  cases l with
  | nil => rfl
  | cons d ds =>
    have hd : isSep d = false := hl d ds rfl
    rw [collapseAux, collapseAux, if_neg (by simp [hd]), if_neg (by simp [hd])]

theorem collapseAux_idem (flag : Bool) (l : Str) :
    collapseAux false (collapseAux flag l) = collapseAux flag l := by
  induction l generalizing flag with
  | nil => rfl
  | cons c rest ih =>
    rw [collapseAux]
    by_cases hsep : isSep c = true
    · rw [if_pos hsep]
      cases flag with
      | true => exact ih true
      | false =>
        show collapseAux false ('-' :: collapseAux true rest) =
          '-' :: collapseAux true rest
        have hstep : collapseAux false ('-' :: collapseAux true rest) =
            '-' :: collapseAux true (collapseAux true rest) := rfl
        rw [hstep]
        rw [collapseAux_flag_of_head_not true false _
          (fun d ds hd => collapseAux_true_head rest hd)]
        exact congrArg _ (ih true)
    · rw [if_neg hsep, collapseAux, if_neg hsep]
      exact congrArg _ (ih false)

theorem collapseSeps_idem (l : Str) :
    collapseSeps (collapseSeps l) = collapseSeps l :=
  collapseAux_idem false l

/-- **C10** — Implicit: `pypi_normalize` is idempotent: normalizing an
already-normalized name changes nothing, so normalized project names are
fixed points of normalization and re-normalizing a stored project directory
name never changes where it is addressed. -/
theorem pypiNormalize_idem (s : Str) :
    pypiNormalize (pypiNormalize s) = pypiNormalize s := by
  unfold pypiNormalize
  rw [collapseSeps_map_lower, collapseSeps_idem, List.map_map]
  refine congrFun (congrArg _ ?_) _
  funext c
  exact asciiLower_idem c

/-! ## Operation case-analysis lemmas -/

theorem decodeStrip_wPrims (s : Str) : wPrims.decodeStrip (wPrims.utf8Encode s) = s := by
  simp only [wPrims, List.map_map]
  rw [show Char.ofNat ∘ Char.toNat = id from funext Char.ofNat_toNat, List.map_id]

theorem decodeStrip_wPrims64 (s : Str) : wPrims64.decodeStrip (wPrims64.utf8Encode s) = s := by
  simp only [wPrims64, List.map_map]
  rw [show Char.ofNat ∘ Char.toNat = id from funext Char.ofNat_toNat, List.map_id]

theorem fn_ne_sidecar (fn : Str) : ¬(fn = fn ++ str ".sha256") :=
  fun h => sha_append_ne fn h.symm

theorem lfsGet_spec_none (π : Prims) (s : LFSState) (pn v fn : Str)
    (hf : s.find (pypiNormalize pn) v fn = none) :
    LocalFS.getFileContents π s pn v fn = (none, s) := by
  unfold LocalFS.getFileContents
  simp only [hf]

theorem lfsGet_spec_found (π : Prims) (s : LFSState) (pn v fn : Str)
    {c sb : Bytes}
    (hf : s.find (pypiNormalize pn) v fn = some c)
    (hs : s.find (pypiNormalize pn) v (fn ++ str ".sha256") = some sb) :
    LocalFS.getFileContents π s pn v fn = (some ⟨fn, c, π.decodeStrip sb⟩, s) := by
  unfold LocalFS.getFileContents
  simp only [hf, hs]

theorem lfsGet_spec_heal (π : Prims) (s : LFSState) (pn v fn : Str)
    {c : Bytes}
    (hf : s.find (pypiNormalize pn) v fn = some c)
    (hs : s.find (pypiNormalize pn) v (fn ++ str ".sha256") = none) :
    LocalFS.getFileContents π s pn v fn =
      (some ⟨fn, c, π.sha256hex c⟩,
        s.write (pypiNormalize pn) v (fn ++ str ".sha256")
          (π.utf8Encode (π.sha256hex c))) := by
  unfold LocalFS.getFileContents
  simp only [hf, hs]

theorem lfsUpload_spec_ok (π : Prims) (aw : Bool) (s : LFSState)
    (pn v fn : Str) (content : Bytes) (dg : Option Str)
    (hok : (!aw &&
      ((s.makedirs (pypiNormalize pn) v).find (pypiNormalize pn) v fn).isSome) = false) :
    LocalFS.uploadFile π aw s pn v fn content dg =
      (none,
        ((s.makedirs (pypiNormalize pn) v).write (pypiNormalize pn) v fn content).write
          (pypiNormalize pn) v (fn ++ str ".sha256")
          (π.utf8Encode (pyOrElse dg (π.sha256hex content)))) := by
  unfold LocalFS.uploadFile
  rw [if_neg (by simp [hok])]

theorem lfsUpload_spec_err (π : Prims) (aw : Bool) (s : LFSState)
    (pn v fn : Str) (content : Bytes) (dg : Option Str)
    (herr : (!aw &&
      ((s.makedirs (pypiNormalize pn) v).find (pypiNormalize pn) v fn).isSome) = true) :
    LocalFS.uploadFile π aw s pn v fn content dg =
      (some ⟨fn, pn⟩, s.makedirs (pypiNormalize pn) v) := by
  unfold LocalFS.uploadFile
  rw [if_pos herr]

theorem azGet_spec_none (π : Prims) (s : AzState) (base pn v fn : Str)
    (hb : s.findBlob (Azure.blobName base pn v fn) = none) :
    Azure.getFileContents π s base pn v fn = (none, s) := by
  unfold Azure.getFileContents
  simp only [hb]

theorem azGet_spec_found (π : Prims) (s : AzState) (base pn v fn : Str)
    {b : Blob} {d : Str}
    (hb : s.findBlob (Azure.blobName base pn v fn) = some b)
    (hd : b.sha = some d) :
    Azure.getFileContents π s base pn v fn = (some ⟨fn, b.content, d⟩, s) := by
  unfold Azure.getFileContents
  simp only [hb, hd]

theorem azGet_spec_heal (π : Prims) (s : AzState) (base pn v fn : Str)
    {b : Blob}
    (hb : s.findBlob (Azure.blobName base pn v fn) = some b)
    (hd : b.sha = none) :
    Azure.getFileContents π s base pn v fn =
      (some ⟨fn, b.content, π.sha256hex b.content⟩,
        s.setMeta (Azure.blobName base pn v fn) (π.sha256hex b.content)) := by
  unfold Azure.getFileContents
  simp only [hb, hd]

theorem azUpload_spec_ok (π : Prims) (aw : Bool) (s : AzState)
    (base pn v fn : Str) (content : Bytes) (dg : Option Str)
    (hok : (!aw && (s.findBlob (Azure.blobName base pn v fn)).isSome) = false) :
    Azure.uploadFile π aw s base pn v fn content dg =
      (none, s.writeBlob (Azure.blobName base pn v fn) content
        (pyOrElse dg (π.sha256hex content))) := by
  unfold Azure.uploadFile
  rw [if_neg (by simp [hok])]

theorem azUpload_spec_err (π : Prims) (aw : Bool) (s : AzState)
    (base pn v fn : Str) (content : Bytes) (dg : Option Str)
    (herr : (!aw && (s.findBlob (Azure.blobName base pn v fn)).isSome) = true) :
    Azure.uploadFile π aw s base pn v fn content dg = (some ⟨fn, pn⟩, s) := by
  unfold Azure.uploadFile
  rw [if_pos herr]

/-! ## C1: upload/get round trip -/

/-- **C1** — Round-trip: for every project name, version, filename and
content, a successful `upload_file` with no digest supplied followed by
`get_file_contents` at the same address returns a `FileContents` whose
content is the uploaded bytes and whose digest is the SHA-256 hex digest of
those bytes, on both the local filesystem backend and the blob backend.
(`sha256hex` is the abstract SHA-256 primitive; the only property of the
remaining primitives used is that decoding an encoded digest string gives
the digest back.) -/
theorem c1_upload_get_roundTrip (π : Prims)
    (hrt : ∀ b : Bytes, π.decodeStrip (π.utf8Encode (π.sha256hex b)) = π.sha256hex b)
    (aw : Bool) (s : LFSState) (az : AzState) (base pn v fn : Str) (content : Bytes)
    (s' : LFSState) (az' : AzState)
    (h1 : LocalFS.uploadFile π aw s pn v fn content none = (none, s'))
    (h2 : Azure.uploadFile π aw az base pn v fn content none = (none, az')) :
    LocalFS.getFileContents π s' pn v fn =
      (some ⟨fn, content, π.sha256hex content⟩, s') ∧
    Azure.getFileContents π az' base pn v fn =
      (some ⟨fn, content, π.sha256hex content⟩, az') := by
  constructor
  · cases hcond : (!aw &&
        ((s.makedirs (pypiNormalize pn) v).find (pypiNormalize pn) v fn).isSome) with
    | true =>
      rw [lfsUpload_spec_err π aw s pn v fn content none hcond] at h1
      exact absurd (congrArg Prod.fst h1) (by simp)
    | false =>
      rw [lfsUpload_spec_ok π aw s pn v fn content none hcond] at h1
      injection h1 with h1a h1b
      subst h1b
      have hf : (((s.makedirs (pypiNormalize pn) v).write (pypiNormalize pn) v fn
            content).write (pypiNormalize pn) v (fn ++ str ".sha256")
            (π.utf8Encode (pyOrElse none (π.sha256hex content)))).find
            (pypiNormalize pn) v fn = some content := by
        rw [LFSState.find_write_ne _ _ (fun hcon => fn_ne_sidecar fn hcon.2.2)]
        exact LFSState.find_write_same _ _ _ _ _
      have hs : (((s.makedirs (pypiNormalize pn) v).write (pypiNormalize pn) v fn
            content).write (pypiNormalize pn) v (fn ++ str ".sha256")
            (π.utf8Encode (pyOrElse none (π.sha256hex content)))).find
            (pypiNormalize pn) v (fn ++ str ".sha256") =
          some (π.utf8Encode (pyOrElse none (π.sha256hex content))) :=
        LFSState.find_write_same _ _ _ _ _
      rw [lfsGet_spec_found π _ pn v fn hf hs]
      rw [show pyOrElse none (π.sha256hex content) = π.sha256hex content from rfl,
        hrt content]
  · cases hcond : (!aw && (az.findBlob (Azure.blobName base pn v fn)).isSome) with
    | true =>
      rw [azUpload_spec_err π aw az base pn v fn content none hcond] at h2
      exact absurd (congrArg Prod.fst h2) (by simp)
    | false =>
      rw [azUpload_spec_ok π aw az base pn v fn content none hcond] at h2
      injection h2 with h2a h2b
      subst h2b
      have hb := AzState.findBlob_write_same az (Azure.blobName base pn v fn) content
        (pyOrElse none (π.sha256hex content))
      rw [azGet_spec_found π _ base pn v fn hb rfl]
      rfl

/-- Witness for C1 at a concrete input. -/
theorem c1_upload_get_roundTrip_witness :
    LocalFS.getFileContents wPrims
        (LocalFS.uploadFile wPrims true lfsEmpty (str "proj") (str "1.0")
          (str "a.whl") [1, 2] none).2 (str "proj") (str "1.0") (str "a.whl") =
      (some ⟨str "a.whl", [1, 2], wPrims.sha256hex [1, 2]⟩,
        (LocalFS.uploadFile wPrims true lfsEmpty (str "proj") (str "1.0")
          (str "a.whl") [1, 2] none).2) ∧
    Azure.getFileContents wPrims
        (Azure.uploadFile wPrims true azEmpty (str "b/") (str "proj") (str "1.0")
          (str "a.whl") [1, 2] none).2 (str "b/") (str "proj") (str "1.0")
        (str "a.whl") =
      (some ⟨str "a.whl", [1, 2], wPrims.sha256hex [1, 2]⟩,
        (Azure.uploadFile wPrims true azEmpty (str "b/") (str "proj") (str "1.0")
          (str "a.whl") [1, 2] none).2) :=
  c1_upload_get_roundTrip wPrims (fun b => decodeStrip_wPrims (wPrims.sha256hex b))
    true lfsEmpty azEmpty (str "b/") (str "proj") (str "1.0") (str "a.whl") [1, 2]
    (LocalFS.uploadFile wPrims true lfsEmpty (str "proj") (str "1.0")
      (str "a.whl") [1, 2] none).2
    (Azure.uploadFile wPrims true azEmpty (str "b/") (str "proj") (str "1.0")
      (str "a.whl") [1, 2] none).2
    (by decide) (by decide)

/-! ## More state helper lemmas -/

theorem startsB_append (p t : Str) : startsB (p ++ t) p = true := by
  induction p with
  | nil => cases t <;> rfl
  | cons c cs ih => simp [startsB, ih]

theorem LFSState.makedirs_of_mem {s : LFSState} {pd v : Str}
    (hp : pd ∈ s.projDirs) (hv : (pd, v) ∈ s.verDirs) : s.makedirs pd v = s := by
  unfold LFSState.makedirs
  rw [if_pos (List.elem_eq_true_of_mem hp), if_pos (List.elem_eq_true_of_mem hv)]

theorem LFSState.mem_dirs_of_find {s : LFSState} {pd v f : Str} {c : Bytes}
    (hwf : s.wf) (hf : s.find pd v f = some c) :
    pd ∈ s.projDirs ∧ (pd, v) ∈ s.verDirs := by
  unfold LFSState.find at hf
  cases hfind : s.files.find? (fun e => e.projDir = pd && e.version = v && e.name = f) with
  | none => rw [hfind] at hf; simp at hf
  | some e =>
    have hmem := List.mem_of_find?_eq_some hfind
    have hpred := List.find?_some hfind
    simp only [Bool.and_eq_true, decide_eq_true_eq] at hpred
    have hv : (pd, v) ∈ s.verDirs := by
      have := hwf.1 e hmem
      rw [hpred.1.1, hpred.1.2] at this
      exact this
    exact ⟨hwf.2.1 (pd, v) hv, hv⟩

/-! ## C3: idempotent digest self-heal -/

/-- **C3** — Idempotent self-heal: if an artifact exists but its digest
companion is absent, `get_file_contents` computes the SHA-256 of the stored
content, persists it (sidecar file / `sha256` metadata), and returns it; a
second `get_file_contents` returns the same digest and leaves the store
exactly as the first call left it (no further writes).  Both backends. -/
theorem c3_selfHeal (π : Prims)
    (hrt : ∀ b : Bytes, π.decodeStrip (π.utf8Encode (π.sha256hex b)) = π.sha256hex b)
    (s : LFSState) (az : AzState) (base pn v fn : Str) (c : Bytes) (b : Blob)
    (hf : s.find (pypiNormalize pn) v fn = some c)
    (hs : s.find (pypiNormalize pn) v (fn ++ str ".sha256") = none)
    (hb : az.findBlob (Azure.blobName base pn v fn) = some b)
    (hbs : b.sha = none) :
    (LocalFS.getFileContents π s pn v fn).1 = some ⟨fn, c, π.sha256hex c⟩ ∧
    (LocalFS.getFileContents π s pn v fn).2.find (pypiNormalize pn) v
        (fn ++ str ".sha256") = some (π.utf8Encode (π.sha256hex c)) ∧
    LocalFS.getFileContents π (LocalFS.getFileContents π s pn v fn).2 pn v fn =
      (some ⟨fn, c, π.sha256hex c⟩, (LocalFS.getFileContents π s pn v fn).2) ∧
    (Azure.getFileContents π az base pn v fn).1 =
      some ⟨fn, b.content, π.sha256hex b.content⟩ ∧
    ((Azure.getFileContents π az base pn v fn).2.findBlob
        (Azure.blobName base pn v fn)).map Blob.sha =
      some (some (π.sha256hex b.content)) ∧
    Azure.getFileContents π (Azure.getFileContents π az base pn v fn).2 base pn v fn =
      (some ⟨fn, b.content, π.sha256hex b.content⟩,
        (Azure.getFileContents π az base pn v fn).2) := by
  rw [lfsGet_spec_heal π s pn v fn hf hs, azGet_spec_heal π az base pn v fn hb hbs]
  have hf1 : (s.write (pypiNormalize pn) v (fn ++ str ".sha256")
      (π.utf8Encode (π.sha256hex c))).find (pypiNormalize pn) v fn = some c := by
    rw [LFSState.find_write_ne _ _ (fun hcon => fn_ne_sidecar fn hcon.2.2)]
    exact hf
  have hs1 : (s.write (pypiNormalize pn) v (fn ++ str ".sha256")
      (π.utf8Encode (π.sha256hex c))).find (pypiNormalize pn) v
      (fn ++ str ".sha256") = some (π.utf8Encode (π.sha256hex c)) :=
    LFSState.find_write_same _ _ _ _ _
  have hb1 := AzState.findBlob_setMeta_same az (π.sha256hex b.content) hb
  refine ⟨rfl, hs1, ?_, rfl, ?_, ?_⟩
  · rw [lfsGet_spec_found π _ pn v fn hf1 hs1, hrt c]
  · rw [hb1]
    rfl
  · rw [azGet_spec_found π _ base pn v fn hb1 rfl]

/-- Witness for C3 at a concrete store state. -/
theorem c3_selfHeal_witness :
    ((LocalFS.getFileContents wPrims
        ⟨[str "p"], [(str "p", str "1.0")],
          [⟨str "p", str "1.0", str "a.whl", [3]⟩]⟩ (str "p") (str "1.0")
        (str "a.whl")).1 = some ⟨str "a.whl", [3], wPrims.sha256hex [3]⟩) ∧
    ((Azure.getFileContents wPrims ⟨[⟨str "b/p/1.0/a.whl", [3], none⟩]⟩
        (str "b/") (str "p") (str "1.0") (str "a.whl")).1 =
      some ⟨str "a.whl", [3], wPrims.sha256hex [3]⟩) := by
  have h := c3_selfHeal wPrims (fun b => decodeStrip_wPrims (wPrims.sha256hex b))
    ⟨[str "p"], [(str "p", str "1.0")], [⟨str "p", str "1.0", str "a.whl", [3]⟩]⟩
    ⟨[⟨str "b/p/1.0/a.whl", [3], none⟩]⟩ (str "b/") (str "p") (str "1.0")
    (str "a.whl") [3] ⟨str "b/p/1.0/a.whl", [3], none⟩
    (by decide) (by decide) (by decide) (by decide)
  exact ⟨h.1, h.2.2.2.1⟩

/-! ## C4: overwrite gating -/

/-- **C4** — Overwrite gating with error atomicity: on both backends, when
the target `(project, version, filename)` already exists and overwrite is
disabled, `upload_file` raises `ProjectFileExistsError` carrying the
project name and filename and leaves the store exactly as it was; when
overwrite is enabled, the second upload's content and digest fully replace
the first. -/
theorem c4_overwrite_gating (π : Prims) (s : LFSState) (az : AzState)
    (base pn v fn : Str) (c0 c : Bytes) (b0 : Blob) (dg : Option Str)
    (hwf : s.wf)
    (hf0 : s.find (pypiNormalize pn) v fn = some c0)
    (hb0 : az.findBlob (Azure.blobName base pn v fn) = some b0) :
    LocalFS.uploadFile π false s pn v fn c dg = (some ⟨fn, pn⟩, s) ∧
    Azure.uploadFile π false az base pn v fn c dg = (some ⟨fn, pn⟩, az) ∧
    ((LocalFS.uploadFile π true s pn v fn c none).1 = none ∧
      (LocalFS.uploadFile π true s pn v fn c none).2.find (pypiNormalize pn) v fn =
        some c ∧
      (LocalFS.uploadFile π true s pn v fn c none).2.find (pypiNormalize pn) v
        (fn ++ str ".sha256") = some (π.utf8Encode (π.sha256hex c))) ∧
    ((Azure.uploadFile π true az base pn v fn c none).1 = none ∧
      (Azure.uploadFile π true az base pn v fn c none).2.findBlob
        (Azure.blobName base pn v fn) =
          some ⟨Azure.blobName base pn v fn, c, some (π.sha256hex c)⟩) := by
  have hdirs := LFSState.mem_dirs_of_find hwf hf0
  have hmk : s.makedirs (pypiNormalize pn) v = s :=
    LFSState.makedirs_of_mem hdirs.1 hdirs.2
  refine ⟨?_, ?_, ?_, ?_⟩
  · rw [lfsUpload_spec_err π false s pn v fn c dg
      (by rw [hmk]; simp [hf0]), hmk]
  · exact azUpload_spec_err π false az base pn v fn c dg (by simp [hb0])
  · rw [lfsUpload_spec_ok π true s pn v fn c none (by simp)]
    refine ⟨rfl, ?_, ?_⟩
    · rw [LFSState.find_write_ne _ _ (fun hcon => fn_ne_sidecar fn hcon.2.2)]
      exact LFSState.find_write_same _ _ _ _ _
    · exact LFSState.find_write_same _ _ _ _ _
  · rw [azUpload_spec_ok π true az base pn v fn c none (by simp)]
    exact ⟨rfl, AzState.findBlob_write_same _ _ _ _⟩

/-- Witness for C4 at a concrete store state. -/
theorem c4_overwrite_gating_witness :
    LocalFS.uploadFile wPrims false
        ⟨[str "p"], [(str "p", str "1.0")],
          [⟨str "p", str "1.0", str "a.whl", [3]⟩]⟩
        (str "p") (str "1.0") (str "a.whl") [4] none =
      (some ⟨str "a.whl", str "p"⟩,
        ⟨[str "p"], [(str "p", str "1.0")],
          [⟨str "p", str "1.0", str "a.whl", [3]⟩]⟩) ∧
    Azure.uploadFile wPrims false ⟨[⟨str "b/p/1.0/a.whl", [3], none⟩]⟩
        (str "b/") (str "p") (str "1.0") (str "a.whl") [4] none =
      (some ⟨str "a.whl", str "p"⟩, ⟨[⟨str "b/p/1.0/a.whl", [3], none⟩]⟩) := by
  have h := c4_overwrite_gating wPrims
    ⟨[str "p"], [(str "p", str "1.0")], [⟨str "p", str "1.0", str "a.whl", [3]⟩]⟩
    ⟨[⟨str "b/p/1.0/a.whl", [3], none⟩]⟩ (str "b/") (str "p") (str "1.0")
    (str "a.whl") [3] [4] ⟨str "b/p/1.0/a.whl", [3], none⟩ none
    (by decide) (by decide) (by decide)
  exact ⟨h.1, h.2.1⟩

/-! ## C8: delete_project_version semantics -/

theorem blobName_split (base pn v fn : Str) :
    Azure.blobName base pn v fn = (base ++ pn ++ str "/" ++ v ++ str "/") ++ fn := by
  simp [Azure.blobName, List.append_assoc]

theorem contains_filter_ne_self [BEq α] [LawfulBEq α] [DecidableEq α] (l : List α) (a : α) :
    (l.filter (fun x => !(x = a))).contains a = false := by
  cases hc : (l.filter (fun x => !(x = a))).contains a with
  | false => rfl
  | true =>
    have hm := List.mem_of_elem_eq_true hc
    have := (List.mem_filter.mp hm).2
    simp at this

theorem lfsDelver_spec_pos (s : LFSState) (pn v : Str)
    (hv : (pypiNormalize pn, v) ∈ s.verDirs) :
    LocalFS.deleteProjectVersion s pn v =
      (true,
        { s with
          verDirs := s.verDirs.filter (fun pv => !(pv = (pypiNormalize pn, v)))
          files := s.files.filter (fun e =>
            !(e.projDir = pypiNormalize pn && e.version = v)) }) := by
  unfold LocalFS.deleteProjectVersion
  simp only [List.elem_eq_true_of_mem hv, if_pos]

theorem lfsDelver_spec_neg (s : LFSState) (pn v : Str)
    (hv : s.verDirs.contains (pypiNormalize pn, v) = false) :
    LocalFS.deleteProjectVersion s pn v = (false, s) := by
  unfold LocalFS.deleteProjectVersion
  simp only [hv, Bool.false_eq_true, if_false]

theorem azDelver_spec_pos (s : AzState) (base pn v : Str)
    (hne : (s.blobs.filter (fun b =>
      startsB b.name (base ++ pn ++ str "/" ++ v ++ str "/"))).isEmpty = false) :
    Azure.deleteProjectVersion s base pn v =
      (true, ⟨s.blobs.filter (fun b =>
        !(startsB b.name (base ++ pn ++ str "/" ++ v ++ str "/")))⟩) := by
  unfold Azure.deleteProjectVersion
  simp only [hne, Bool.false_eq_true, if_false]

theorem azDelver_spec_neg (s : AzState) (base pn v : Str)
    (hne : (s.blobs.filter (fun b =>
      startsB b.name (base ++ pn ++ str "/" ++ v ++ str "/"))).isEmpty = true) :
    Azure.deleteProjectVersion s base pn v = (false, s) := by
  unfold Azure.deleteProjectVersion
  simp only [hne, if_true]

/-- **C8** — `delete_project_version` on a version that holds a stored file
returns true, afterwards `get_file_contents` is absent for every filename
under that (project, version), and a second `delete_project_version` on the
same address returns false rather than raising.  Both backends. -/
theorem c8_delete_version (π : Prims) (s : LFSState) (az : AzState)
    (base pn v fn0 : Str) (c0 : Bytes) (b0 : Blob)
    (hwf : s.wf)
    (hf0 : s.find (pypiNormalize pn) v fn0 = some c0)
    (hb0 : az.findBlob (Azure.blobName base pn v fn0) = some b0) :
    (LocalFS.deleteProjectVersion s pn v).1 = true ∧
    (∀ fn, (LocalFS.getFileContents π
      (LocalFS.deleteProjectVersion s pn v).2 pn v fn).1 = none) ∧
    (LocalFS.deleteProjectVersion (LocalFS.deleteProjectVersion s pn v).2 pn v).1 =
      false ∧
    (Azure.deleteProjectVersion az base pn v).1 = true ∧
    (∀ fn, (Azure.getFileContents π
      (Azure.deleteProjectVersion az base pn v).2 base pn v fn).1 = none) ∧
    (Azure.deleteProjectVersion (Azure.deleteProjectVersion az base pn v).2
      base pn v).1 = false := by
  have hv : (pypiNormalize pn, v) ∈ s.verDirs := (LFSState.mem_dirs_of_find hwf hf0).2
  rw [lfsDelver_spec_pos s pn v hv]
  have hblob0 : b0 ∈ az.blobs := List.mem_of_find?_eq_some hb0
  have hname0 : b0.name = Azure.blobName base pn v fn0 := by
    have := List.find?_some hb0
    simpa using this
  have hstarts0 : startsB b0.name (base ++ pn ++ str "/" ++ v ++ str "/") = true := by
    rw [hname0, blobName_split]
    exact startsB_append _ _
  have hne : (az.blobs.filter (fun b =>
      startsB b.name (base ++ pn ++ str "/" ++ v ++ str "/"))).isEmpty = false := by
    have hm : b0 ∈ az.blobs.filter (fun b =>
        startsB b.name (base ++ pn ++ str "/" ++ v ++ str "/")) :=
      List.mem_filter.mpr ⟨hblob0, hstarts0⟩
    cases hie : (az.blobs.filter (fun b =>
        startsB b.name (base ++ pn ++ str "/" ++ v ++ str "/"))).isEmpty with
    | false => rfl
    | true =>
      rw [List.isEmpty_iff] at hie
      rw [hie] at hm
      simp at hm
  rw [azDelver_spec_pos az base pn v hne]
  refine ⟨rfl, ?_, ?_, rfl, ?_, ?_⟩
  · intro fn
    rw [lfsGet_spec_none π _ pn v fn ?_]
    unfold LFSState.find
    rw [find?_filter_none s.files (by
      intro e he
      simp only [Bool.and_eq_true, decide_eq_true_eq] at he
      simp [he.1.1, he.1.2])]
    rfl
  · rw [lfsDelver_spec_neg _ pn v (contains_filter_ne_self s.verDirs _)]
  · intro fn
    rw [azGet_spec_none π _ base pn v fn ?_]
    unfold AzState.findBlob
    simp only
    rw [find?_filter_none az.blobs (by
      intro b hb
      simp only [decide_eq_true_eq] at hb
      have hst : startsB b.name (base ++ pn ++ str "/" ++ v ++ str "/") = true := by
        rw [hb, blobName_split]
        exact startsB_append _ _
      simp only [List.append_assoc] at hst ⊢
      simp [hst])]
  · rw [azDelver_spec_neg _ base pn v ?_]
    rw [List.filter_filter]
    simp

/-- Witness for C8 at a concrete store state. -/
theorem c8_delete_version_witness :
    (LocalFS.deleteProjectVersion
      ⟨[str "p"], [(str "p", str "1.0")],
        [⟨str "p", str "1.0", str "a.whl", [3]⟩]⟩ (str "p") (str "1.0")).1 = true ∧
    (Azure.deleteProjectVersion ⟨[⟨str "b/p/1.0/a.whl", [3], none⟩]⟩
      (str "b/") (str "p") (str "1.0")).1 = true := by
  have h := c8_delete_version wPrims
    ⟨[str "p"], [(str "p", str "1.0")], [⟨str "p", str "1.0", str "a.whl", [3]⟩]⟩
    ⟨[⟨str "b/p/1.0/a.whl", [3], none⟩]⟩ (str "b/") (str "p") (str "1.0")
    (str "a.whl") [3] ⟨str "b/p/1.0/a.whl", [3], none⟩
    (by decide) (by decide) (by decide)
  exact ⟨h.1, h.2.2.2.1⟩

/-! ## C9: delete_project_version_file -/

theorem LocalFS.delfile_spec_absent (s : LFSState) (pn v fn : Str)
    (hf : s.find (pypiNormalize pn) v fn = none) :
    LocalFS.deleteProjectVersionFile s pn v fn = (Except.ok false, s) := by
  unfold LocalFS.deleteProjectVersionFile
  simp only [hf]

theorem LocalFS.delfile_spec_err (s : LFSState) (pn v fn : Str) {c : Bytes}
    (hf : s.find (pypiNormalize pn) v fn = some c)
    (hs : (s.erase (pypiNormalize pn) v fn).find (pypiNormalize pn) v
      (fn ++ str ".sha256") = none) :
    LocalFS.deleteProjectVersionFile s pn v fn =
      (Except.error (), s.erase (pypiNormalize pn) v fn) := by
  unfold LocalFS.deleteProjectVersionFile
  simp only [hf, hs]

theorem LocalFS.delfile_spec_ok (s : LFSState) (pn v fn : Str) {c sb : Bytes}
    (hf : s.find (pypiNormalize pn) v fn = some c)
    (hs : (s.erase (pypiNormalize pn) v fn).find (pypiNormalize pn) v
      (fn ++ str ".sha256") = some sb) :
    LocalFS.deleteProjectVersionFile s pn v fn =
      (Except.ok true,
        (s.erase (pypiNormalize pn) v fn).erase (pypiNormalize pn) v
          (fn ++ str ".sha256")) := by
  unfold LocalFS.deleteProjectVersionFile
  simp only [hf, hs]

theorem Azure.delfile_spec_neg (s : AzState) (base pn v fn : Str)
    (hb : s.findBlob (Azure.blobName base pn v fn) = none) :
    Azure.deleteProjectVersionFile s base pn v fn = (false, s) := by
  unfold Azure.deleteProjectVersionFile
  simp only [hb]

theorem Azure.delfile_spec_pos (s : AzState) (base pn v fn : Str) {b : Blob}
    (hb : s.findBlob (Azure.blobName base pn v fn) = some b) :
    Azure.deleteProjectVersionFile s base pn v fn =
      (true, ⟨s.blobs.filter (fun x => !(x.name = Azure.blobName base pn v fn))⟩) := by
  unfold Azure.deleteProjectVersionFile
  simp only [hb]

/-- **C9** — counterexample to the claim as stated: in a store state where
the artifact exists but its digest companion is absent, the local
filesystem backend's `delete_project_version_file` does *not* return true —
it raises `FileNotFoundError` from the unconditional `os.remove` of the
sidecar (after having already removed the artifact). -/
theorem c9_delete_file_cex :
    (LocalFS.deleteProjectVersionFile
      ⟨[str "p"], [(str "p", str "1.0")],
        [⟨str "p", str "1.0", str "a.whl", [3]⟩]⟩
      (str "p") (str "1.0") (str "a.whl")).1 = Except.error () := rfl

/-- **C9** — amended: `delete_project_version_file` returns false (without
raising) when the artifact is absent, on both backends.  When the artifact
exists, the blob backend returns true unconditionally; the local filesystem
backend returns true and removes artifact and sidecar when the sidecar is
present, but when the sidecar is absent it removes the artifact and then
raises.  No artifact at any other path is affected. -/
theorem c9_delete_file_amended (s : LFSState) (az : AzState)
    (base pn v fn pd' v' f' : Str) (c sb : Bytes) (b : Blob) :
    (s.find (pypiNormalize pn) v fn = none →
      LocalFS.deleteProjectVersionFile s pn v fn = (Except.ok false, s)) ∧
    (s.find (pypiNormalize pn) v fn = some c →
      s.find (pypiNormalize pn) v (fn ++ str ".sha256") = none →
      LocalFS.deleteProjectVersionFile s pn v fn =
        (Except.error (), s.erase (pypiNormalize pn) v fn)) ∧
    (s.find (pypiNormalize pn) v fn = some c →
      s.find (pypiNormalize pn) v (fn ++ str ".sha256") = some sb →
      LocalFS.deleteProjectVersionFile s pn v fn =
        (Except.ok true,
          (s.erase (pypiNormalize pn) v fn).erase (pypiNormalize pn) v
            (fn ++ str ".sha256")) ∧
      ((s.erase (pypiNormalize pn) v fn).erase (pypiNormalize pn) v
          (fn ++ str ".sha256")).find (pypiNormalize pn) v fn = none ∧
      ((s.erase (pypiNormalize pn) v fn).erase (pypiNormalize pn) v
          (fn ++ str ".sha256")).find (pypiNormalize pn) v
          (fn ++ str ".sha256") = none ∧
      (¬(pd' = pypiNormalize pn ∧ v' = v ∧ f' = fn) →
        ¬(pd' = pypiNormalize pn ∧ v' = v ∧ f' = fn ++ str ".sha256") →
        ((s.erase (pypiNormalize pn) v fn).erase (pypiNormalize pn) v
          (fn ++ str ".sha256")).find pd' v' f' = s.find pd' v' f')) ∧
    (az.findBlob (Azure.blobName base pn v fn) = none →
      Azure.deleteProjectVersionFile az base pn v fn = (false, az)) ∧
    (az.findBlob (Azure.blobName base pn v fn) = some b →
      Azure.deleteProjectVersionFile az base pn v fn =
        (true,
          ⟨az.blobs.filter (fun x => !(x.name = Azure.blobName base pn v fn))⟩) ∧
      (∀ bn2, ¬(bn2 = Azure.blobName base pn v fn) →
        AzState.findBlob
          ⟨az.blobs.filter (fun x => !(x.name = Azure.blobName base pn v fn))⟩
          bn2 = az.findBlob bn2)) := by
  refine ⟨?_, ?_, ?_, ?_, ?_⟩
  · intro hf
    exact LocalFS.delfile_spec_absent s pn v fn hf
  · intro hf hs
    refine LocalFS.delfile_spec_err s pn v fn hf ?_
    rw [LFSState.find_erase_ne _ (fun hcon => sha_append_ne fn hcon.2.2)]
    exact hs
  · intro hf hs
    have hs1 : (s.erase (pypiNormalize pn) v fn).find (pypiNormalize pn) v
        (fn ++ str ".sha256") = some sb := by
      rw [LFSState.find_erase_ne _ (fun hcon => sha_append_ne fn hcon.2.2)]
      exact hs
    refine ⟨LocalFS.delfile_spec_ok s pn v fn hf hs1, ?_, ?_, ?_⟩
    · rw [LFSState.find_erase_ne _ (fun hcon => fn_ne_sidecar fn hcon.2.2)]
      exact LFSState.find_erase_same _ _ _ _
    · exact LFSState.find_erase_same _ _ _ _
    · intro h1 h2
      rw [LFSState.find_erase_ne _ h2, LFSState.find_erase_ne _ h1]
  · intro hb
    exact Azure.delfile_spec_neg az base pn v fn hb
  · intro hb
    refine ⟨Azure.delfile_spec_pos az base pn v fn hb, ?_⟩
    intro bn2 hbn2
    unfold AzState.findBlob
    exact find?_filter_of_imp az.blobs (by
      intro x hx
      simp only [decide_eq_true_eq] at hx
      simp [hx, hbn2])

/-- Witness for the amended C9, applied at a populated store and at an
empty store. -/
theorem c9_delete_file_amended_witness :
    LocalFS.deleteProjectVersionFile
        ⟨[str "p"], [(str "p", str "1.0")],
          [⟨str "p", str "1.0", str "a.whl", [3]⟩,
            ⟨str "p", str "1.0", str "a.whl.sha256", [104]⟩]⟩
        (str "p") (str "1.0") (str "a.whl") =
      (Except.ok true, ⟨[str "p"], [(str "p", str "1.0")], []⟩) ∧
    LocalFS.deleteProjectVersionFile lfsEmpty (str "p") (str "1.0")
        (str "a.whl") = (Except.ok false, lfsEmpty) ∧
    Azure.deleteProjectVersionFile azEmpty (str "b/") (str "p") (str "1.0")
        (str "a.whl") = (false, azEmpty) := by
  have h1 := c9_delete_file_amended
    ⟨[str "p"], [(str "p", str "1.0")],
      [⟨str "p", str "1.0", str "a.whl", [3]⟩,
        ⟨str "p", str "1.0", str "a.whl.sha256", [104]⟩]⟩
    azEmpty (str "b/") (str "p") (str "1.0") (str "a.whl")
    (str "p") (str "1.0") (str "x") [3] [104] ⟨[], [], none⟩
  have h2 := c9_delete_file_amended lfsEmpty azEmpty (str "b/") (str "p")
    (str "1.0") (str "a.whl") (str "p") (str "1.0") (str "x") [3] [104]
    ⟨[], [], none⟩
  refine ⟨?_, h2.1 (by decide), h2.2.2.2.1 (by decide)⟩
  have h3 := (h1.2.2.1 (by decide) (by decide)).1
  rw [h3]
  rfl

/-! ## C2: digest-content agreement -/

theorem endsB_append_self (x t : Str) : endsB (x ++ t) t = true := by
  unfold endsB
  rw [List.reverse_append]
  exact startsB_append _ _

/-- **C2** — counterexample to the claim as stated: `upload_file` persists a
caller-supplied digest without verifying it.  For every choice of
primitives whose digest function returns 64-character strings (as real
SHA-256 hex digests are), uploading content `[7]` with the 8-character
supplied digest `"deadbeef"` yields a store whose persisted digest is not
the SHA-256 of the stored bytes, refuting the invariant. -/
theorem c2_digestInv_cex :
    ¬ ∀ (π : Prims), (∀ b : Bytes, (π.sha256hex b).length = 64) →
      ∀ az' : AzState,
        Azure.uploadFile π true azEmpty (str "b/") (str "p") (str "1.0")
          (str "a.whl") [7] (some (str "deadbeef")) = (none, az') →
        az'.digestInv π := by
  intro hall
  have h := hall wPrims64 (fun b => by simp [wPrims64])
    (Azure.uploadFile wPrims64 true azEmpty (str "b/") (str "p") (str "1.0")
      (str "a.whl") [7] (some (str "deadbeef"))).2 rfl
  have hmem : (⟨Azure.blobName (str "b/") (str "p") (str "1.0") (str "a.whl"),
      [7], some (str "deadbeef")⟩ : Blob) ∈
      (Azure.uploadFile wPrims64 true azEmpty (str "b/") (str "p") (str "1.0")
        (str "a.whl") [7] (some (str "deadbeef"))).2.blobs := by
    decide
  have hd := h _ hmem (str "deadbeef") rfl
  have : (str "deadbeef").length = (wPrims64.sha256hex [7]).length :=
    congrArg List.length hd
  simp [wPrims64, str] at this

/-- **C2** — amended: the digest-content invariant is preserved by
`upload_file` whenever the effective digest is correct — i.e. the caller
supplied no digest, an empty string, or exactly the SHA-256 hex digest of
the content (captured by `hdg`).  For the filesystem backend the uploaded
filename must additionally be an artifact name (not ending in `.sha256`,
so that the write cannot silently overwrite another artifact's sidecar),
and digest strings must decode back unchanged.  A caller-supplied digest is
persisted unverified, so the unconditional invariant of the original claim
fails (see the counterexample). -/
theorem c2_digestInv_amended (π : Prims)
    (hrt : ∀ b : Bytes, π.decodeStrip (π.utf8Encode (π.sha256hex b)) = π.sha256hex b)
    (aw : Bool) (s : LFSState) (az : AzState) (base pn v fn : Str)
    (content : Bytes) (dg : Option Str)
    (hdg : pyOrElse dg (π.sha256hex content) = π.sha256hex content)
    (hfn : endsB fn (str ".sha256") = false)
    (hinvL : s.digestInv π) (hinvA : az.digestInv π)
    (s' : LFSState) (az' : AzState)
    (h1 : LocalFS.uploadFile π aw s pn v fn content dg = (none, s'))
    (h2 : Azure.uploadFile π aw az base pn v fn content dg = (none, az')) :
    s'.digestInv π ∧ az'.digestInv π := by
  constructor
  · cases hcond : (!aw &&
        ((s.makedirs (pypiNormalize pn) v).find (pypiNormalize pn) v fn).isSome) with
    | true =>
      rw [lfsUpload_spec_err π aw s pn v fn content dg hcond] at h1
      exact absurd (congrArg Prod.fst h1) (by simp)
    | false =>
      rw [lfsUpload_spec_ok π aw s pn v fn content dg hcond] at h1
      injection h1 with h1a h1b
      subst h1b
      intro e he hart sb hsb
      simp only [LFSState.write, LFSState.makedirs, List.mem_cons] at he
      rcases he with he | he
      · -- e is the freshly written sidecar: not an artifact name
        rw [he] at hart
        rw [endsB_append_self fn (str ".sha256")] at hart
        exact absurd hart (by simp)
      · have he2 := List.mem_filter.mp he
        simp only [List.mem_cons] at he2
        rcases he2.1 with he1 | he1
        · -- e is the freshly written content file
          rw [he1] at hsb hart ⊢
          simp only at hsb ⊢
          rw [LFSState.find_write_same] at hsb
          injection hsb with hsb
          rw [← hsb, hdg, hrt content]
        · -- e is an untouched pre-existing file
          have he3 := List.mem_filter.mp he1
          have hkey1 : ¬(e.projDir = pypiNormalize pn ∧ e.version = v ∧
              e.name = fn) := by
            intro hcon
            have := he3.2
            simp [hcon.1, hcon.2.1, hcon.2.2] at this
          have hkey2 : ¬(e.projDir = pypiNormalize pn ∧ e.version = v ∧
              e.name ++ str ".sha256" = fn ++ str ".sha256") := by
            intro hcon
            exact hkey1 ⟨hcon.1, hcon.2.1, sha_append_inj hcon.2.2⟩
          have hkey3 : ¬(e.projDir = pypiNormalize pn ∧ e.version = v ∧
              e.name ++ str ".sha256" = fn) := by
            intro hcon
            rw [← hcon.2.2, endsB_append_self] at hfn
            simp at hfn
          rw [LFSState.find_write_ne _ _ hkey2,
            LFSState.find_write_ne _ _ hkey3] at hsb
          exact hinvL e he3.1 hart sb hsb
  · cases hcond : (!aw && (az.findBlob (Azure.blobName base pn v fn)).isSome) with
    | true =>
      rw [azUpload_spec_err π aw az base pn v fn content dg hcond] at h2
      exact absurd (congrArg Prod.fst h2) (by simp)
    | false =>
      rw [azUpload_spec_ok π aw az base pn v fn content dg hcond] at h2
      injection h2 with h2a h2b
      subst h2b
      intro b hb d hd
      simp only [AzState.writeBlob, List.mem_cons] at hb
      rcases hb with hb | hb
      · rw [hb] at hd ⊢
        simp only at hd ⊢
        injection hd with hd
        rw [← hd, hdg]
      · exact hinvA b (List.mem_filter.mp hb).1 d hd

/-- Witness for the amended C2 on fresh uploads into empty stores. -/
theorem c2_digestInv_amended_witness :
    LFSState.digestInv wPrims
      (LocalFS.uploadFile wPrims true lfsEmpty (str "p") (str "1.0")
        (str "a.whl") [7] none).2 ∧
    AzState.digestInv wPrims
      (Azure.uploadFile wPrims true azEmpty (str "b/") (str "p") (str "1.0")
        (str "a.whl") [7] none).2 :=
  c2_digestInv_amended wPrims (fun b => decodeStrip_wPrims (wPrims.sha256hex b))
    true lfsEmpty azEmpty (str "b/") (str "p") (str "1.0") (str "a.whl") [7] none
    rfl (by decide)
    (by intro e he; simp [lfsEmpty] at he)
    (by intro b hb; simp [azEmpty] at hb)
    (LocalFS.uploadFile wPrims true lfsEmpty (str "p") (str "1.0")
      (str "a.whl") [7] none).2
    (Azure.uploadFile wPrims true azEmpty (str "b/") (str "p") (str "1.0")
      (str "a.whl") [7] none).2
    rfl rfl

/-! ## String prefix/suffix/split lemmas for the blob listing -/

theorem exists_of_startsB : ∀ {s p : Str}, startsB s p = true → ∃ t, s = p ++ t := by
  intro s p
  induction p generalizing s with
  | nil => exact fun _ => ⟨s, rfl⟩
  | cons d ds ih =>
    cases s with
    | nil => intro h; simp [startsB] at h
    | cons c cs =>
      intro h
      simp only [startsB, Bool.and_eq_true, decide_eq_true_eq] at h
      obtain ⟨t, ht⟩ := ih h.2
      exact ⟨t, by rw [h.1, List.cons_append, ← ht]⟩

theorem dropPre_append (p t : Str) : dropPre (p ++ t) p = t := by
  unfold dropPre
  rw [if_pos (startsB_append p t)]
  exact List.drop_left p t

theorem splitSlash_eq : ∀ {r ver rest : Str},
    splitSlash r = some (ver, rest) → r = ver ++ '/' :: rest ∧ '/' ∉ ver := by
  intro r
  induction r with
  | nil => intro ver rest h; simp [splitSlash] at h
  | cons c cs ih =>
    intro ver rest h
    rw [splitSlash] at h
    by_cases hc : c = '/'
    · rw [if_pos hc] at h
      injection h with h
      injection h with h1 h2
      subst h1
      subst h2
      subst hc
      exact ⟨rfl, by simp⟩
    · rw [if_neg hc] at h
      cases hsp : splitSlash cs with
      | none => rw [hsp] at h; simp at h
      | some pr =>
        rw [hsp] at h
        injection h with h
        injection h with h1 h2
        obtain ⟨hr, hnm⟩ := ih (show splitSlash cs = some (pr.1, pr.2) from by
          rw [hsp])
        subst h2
        rw [← h1]
        constructor
        · rw [List.cons_append, ← hr]
        · simp only [List.mem_cons]
          intro hcon
          rcases hcon with hcon | hcon
          · exact hc hcon.symm
          · exact hnm hcon

theorem startsB_append_of_startsB : ∀ {a p : Str} (b : Str),
    startsB a p = true → startsB (a ++ b) p = true := by
  intro a p
  induction p generalizing a with
  | nil => intro b _; cases a <;> cases b <;> rfl
  | cons d ds ih =>
    cases a with
    | nil => intro b h; simp [startsB] at h
    | cons c cs =>
      intro b h
      simp only [startsB, Bool.and_eq_true, decide_eq_true_eq] at h ⊢
      exact ⟨h.1, ih b h.2⟩

theorem endsB_append_of_endsB {y t : Str} (x : Str) (h : endsB y t = true) :
    endsB (x ++ y) t = true := by
  unfold endsB at h ⊢
  rw [List.reverse_append]
  exact startsB_append_of_startsB _ h

theorem startsB_of_append_cons_not_mem :
    ∀ (x : Str) {p y : Str} {c : Char},
      startsB (x ++ c :: y) p = true → ¬(c ∈ p) → startsB x p = true := by
  intro x
  induction x with
  | nil =>
    intro p y c h hc
    cases p with
    | nil => rfl
    | cons d ds =>
      simp only [List.nil_append, startsB, Bool.and_eq_true, decide_eq_true_eq] at h
      exact absurd (by rw [h.1]; exact List.mem_cons_self d ds) hc
  | cons a xs ih =>
    intro p y c h hc
    cases p with
    | nil => rfl
    | cons d ds =>
      simp only [List.cons_append, startsB, Bool.and_eq_true, decide_eq_true_eq] at h ⊢
      refine ⟨h.1, ih h.2 (fun hmem => hc (List.mem_cons_of_mem d hmem))⟩

theorem endsB_of_append_cons_not_mem {a rest t : Str} {c : Char}
    (h : endsB (a ++ c :: rest) t = true) (hc : ¬(c ∈ t)) :
    endsB rest t = true := by
  unfold endsB at h ⊢
  rw [List.reverse_append, List.reverse_cons, List.append_assoc] at h
  simp only [List.singleton_append] at h
  exact startsB_of_append_cons_not_mem rest.reverse h
    (fun hmem => hc (List.mem_reverse.mp hmem))

/-! ## C5: listing exclusions -/

theorem entriesOf_ok_forall {namePre pn : Str} :
    ∀ {bl : List Blob} {l : List ProjectFileInfo},
      Azure.entriesOf namePre pn bl = Except.ok l →
      ∀ e ∈ l, ∃ b ∈ bl, ∃ ver rest,
        splitSlash (dropPre b.name namePre) = some (ver, rest) ∧
        e = ⟨pn, ver, rest, b.content.length⟩ := by
  intro bl
  induction bl with
  | nil =>
    intro l h e he
    rw [Azure.entriesOf] at h
    injection h with h
    rw [← h] at he
    simp at he
  | cons b rest ih =>
    intro l h e he
    rw [Azure.entriesOf] at h
    cases hsp : splitSlash (dropPre b.name namePre) with
    | none => rw [hsp] at h; simp at h
    | some pr =>
      rw [hsp] at h
      cases hrec : Azure.entriesOf namePre pn rest with
      | error u => rw [hrec] at h; simp [Except.map] at h
      | ok l2 =>
        rw [hrec] at h
        simp only [Except.map] at h
        injection h with h
        rw [← h] at he
        rcases List.mem_cons.mp he with he1 | he1
        · exact ⟨b, List.mem_cons_self b rest, pr.1, pr.2,
            by rw [hsp], by rw [he1]⟩
        · obtain ⟨b2, hb2, ver2, rest2, hsp2, he2⟩ := ih hrec e he1
          exact ⟨b2, List.mem_cons_of_mem b hb2, ver2, rest2, hsp2, he2⟩

/-- **C5** — counterexample to the claim as stated: the local filesystem
backend's listing excludes only `.sha256` sidecars and returns any other
regular file, including one with a non-artifact extension (`readme.txt`,
uploaded through the backend's own upload operation). -/
theorem c5_listing_exclusions_cex :
    (LocalFS.listFilesForProject
        (LocalFS.uploadFile wPrims true lfsEmpty (str "p") (str "1.0")
          (str "readme.txt") [1] none).2 (str "p")).map
        ProjectFileInfo.filename = [str "readme.txt"] ∧
    endsB (str "readme.txt") (str ".whl") = false ∧
    endsB (str "readme.txt") (str ".tar.gz") = false := by decide

/-- **C5** — amended: neither backend ever lists an entry whose filename
ends in `.sha256`; the object-storage backend moreover returns only
filenames ending in `.whl` or `.tar.gz`, while the local filesystem
backend lists every non-sidecar regular file regardless of extension (see
the counterexample). -/
theorem c5_listing_exclusions_amended (s : LFSState) (az : AzState)
    (base pn : Str) :
    (∀ e ∈ LocalFS.listFilesForProject s pn,
      endsB e.filename (str ".sha256") = false) ∧
    (∀ l, Azure.listFilesForProject az base pn = Except.ok l →
      ∀ e ∈ l, endsB e.filename (str ".sha256") = false ∧
        (endsB e.filename (str ".whl") = true ∨
          endsB e.filename (str ".tar.gz") = true)) := by
  constructor
  · intro e he
    unfold LocalFS.listFilesForProject at he
    by_cases hc : s.projDirs.contains pn = true
    · rw [if_pos hc] at he
      have hmem := mem_sortByLe.mp he
      obtain ⟨pv, hpv, hmap⟩ := List.mem_flatMap.mp hmem
      obtain ⟨f, hf, hfe⟩ := List.mem_map.mp hmap
      have hpred := (List.mem_filter.mp hf).2
      simp only [Bool.and_eq_true, Bool.not_eq_true'] at hpred
      rw [← hfe]
      exact hpred.2
    · rw [if_neg hc] at he
      simp at he
  · intro l hl e he
    unfold Azure.listFilesForProject at hl
    obtain ⟨b, hb, ver, rest, hsp, hee⟩ := entriesOf_ok_forall hl e he
    have hb2 := List.mem_filter.mp hb
    have hsuf := hb2.2
    simp only [Bool.and_eq_true, Bool.not_eq_true', Bool.or_eq_true] at hsuf
    have hb3 := List.mem_filter.mp (mem_sortByLe.mp hb2.1)
    obtain ⟨t, ht⟩ := exists_of_startsB hb3.2
    rw [ht, dropPre_append] at hsp
    obtain ⟨hteq, hvnm⟩ := splitSlash_eq hsp
    have hname : b.name = (base ++ pn ++ str "/" ++ ver) ++ '/' :: rest := by
      rw [ht, hteq, List.append_assoc (base ++ pn ++ str "/") ver ('/' :: rest)]
    constructor
    · cases hrs : endsB rest (str ".sha256") with
      | false => rw [hee]; exact hrs
      | true =>
        have h1 : endsB ('/' :: rest) (str ".sha256") = true := by
          rw [← List.singleton_append]
          exact endsB_append_of_endsB _ hrs
        have h2 : endsB b.name (str ".sha256") = true := by
          rw [hname]
          exact endsB_append_of_endsB _ h1
        rw [hsuf.1] at h2
        exact absurd h2 (by simp)
    · rcases hsuf.2 with hw | hw
      · left
        rw [hee]
        rw [hname] at hw
        exact endsB_of_append_cons_not_mem hw (by decide)
      · right
        rw [hee]
        rw [hname] at hw
        exact endsB_of_append_cons_not_mem hw (by decide)

/-- Witness for the amended C5, extracted at concrete stores holding a
wheel, a sidecar entry and (blob backend) a stray text file. -/
theorem c5_listing_exclusions_amended_witness :
    endsB (str "a.whl") (str ".sha256") = false ∧
    (endsB (str "a.whl") (str ".whl") = true ∨
      endsB (str "a.whl") (str ".tar.gz") = true) := by
  have h := c5_listing_exclusions_amended
    ⟨[str "p"], [(str "p", str "1.0")],
      [⟨str "p", str "1.0", str "a.whl", [3]⟩,
        ⟨str "p", str "1.0", str "a.whl.sha256", [104]⟩]⟩
    ⟨[⟨str "b/p/1.0/a.whl", [3], none⟩, ⟨str "b/p/1.0/readme.txt", [1], none⟩]⟩
    (str "b/") (str "p")
  have h1 := h.1 ⟨str "p", str "1.0", str "a.whl", 1⟩ (by decide)
  have h2 := h.2 [⟨str "p", str "1.0", str "a.whl", 1⟩] rfl
    ⟨str "p", str "1.0", str "a.whl", 1⟩ (by decide)
  exact ⟨h1, h2.2⟩

/-! ## C6: normalized addressing in the local filesystem backend -/

/-- **C6** — the code evaluated at the failing input: every operation of the
local filesystem backend resolves the project directory through
`pypi_normalize` *except* `list_files_for_project`, which uses the raw
project name (interface.py line 78).  Uploading under project name
`"Test_Proj"` stores the artifact under directory `"test-proj"`; afterwards
`get_file_contents("Test_Proj", ...)` finds the artifact, but
`list_files_for_project("Test_Proj")` looks up the literal directory
`"Test_Proj"` and returns the empty listing, while
`list_files_for_project("test-proj")` returns the artifact. -/
theorem c6_list_files_normalization_bug :
    pypiNormalize (str "Test_Proj") = str "test-proj" ∧
    (LocalFS.getFileContents wPrims
      (LocalFS.uploadFile wPrims true lfsEmpty (str "Test_Proj") (str "1.0")
        (str "a.whl") [1] none).2 (str "Test_Proj") (str "1.0")
      (str "a.whl")).1 =
      some ⟨str "a.whl", [1], wPrims.sha256hex [1]⟩ ∧
    LocalFS.listFilesForProject
      (LocalFS.uploadFile wPrims true lfsEmpty (str "Test_Proj") (str "1.0")
        (str "a.whl") [1] none).2 (str "Test_Proj") = [] ∧
    LocalFS.listFilesForProject
      (LocalFS.uploadFile wPrims true lfsEmpty (str "Test_Proj") (str "1.0")
        (str "a.whl") [1] none).2 (str "test-proj") =
      [⟨str "test-proj", str "1.0", str "a.whl", 1⟩] := by decide

/-! ## C7: listing order -/

theorem strLtB_irrefl (x : Str) : strLtB x x = false := by
  cases h : strLtB x x with
  | false => rfl
  | true => exact absurd (strLtB_asymm h h) not_false

theorem strLeB_append_same (p x y : Str) :
    strLeB (p ++ x) (p ++ y) = strLeB x y := by
  unfold strLeB
  rw [strLtB_append_same]

theorem lexB_iff {x y : Str} {p : Bool} :
    (strLeB x y && (!(strLeB y x) || p)) = true ↔
      strLtB x y = true ∨ (x = y ∧ p = true) := by
  constructor
  · intro h
    simp only [Bool.and_eq_true, Bool.or_eq_true, Bool.not_eq_true'] at h
    obtain ⟨h1, h2⟩ := h
    rw [strLeB_iff] at h1
    rcases h2 with h2 | h2
    · left
      unfold strLeB at h2
      simpa using h2
    · cases hxy : strLtB x y with
      | true => exact Or.inl rfl
      | false => exact Or.inr ⟨strLtB_conn hxy h1, h2⟩
  · intro h
    simp only [Bool.and_eq_true, Bool.or_eq_true, Bool.not_eq_true']
    rcases h with h | ⟨rfl, hp⟩
    · have hyx : strLtB y x = false := by
        cases hc : strLtB y x with
        | false => rfl
        | true => exact absurd (strLtB_asymm h hc) not_false
      refine ⟨strLeB_iff.mpr hyx, Or.inl ?_⟩
      unfold strLeB
      simp [h]
    · exact ⟨strLeB_iff.mpr (strLtB_irrefl x), Or.inr hp⟩

theorem lexB_total (x y : Str) (p q : Bool) (hpq : p = true ∨ q = true) :
    (strLeB x y && (!(strLeB y x) || p)) = true ∨
    (strLeB y x && (!(strLeB x y) || q)) = true := by
  cases hxy : strLtB x y with
  | true => exact Or.inl (lexB_iff.mpr (Or.inl hxy))
  | false =>
    cases hyx : strLtB y x with
    | true => exact Or.inr (lexB_iff.mpr (Or.inl hyx))
    | false =>
      have heq : x = y := strLtB_conn hxy hyx
      subst heq
      rcases hpq with hp | hq
      · exact Or.inl (lexB_iff.mpr (Or.inr ⟨rfl, hp⟩))
      · exact Or.inr (lexB_iff.mpr (Or.inr ⟨rfl, hq⟩))

theorem lexB_trans {x y z : Str} {p q r : Bool}
    (h1 : (strLeB x y && (!(strLeB y x) || p)) = true)
    (h2 : (strLeB y z && (!(strLeB z y) || q)) = true)
    (hpqr : p = true → q = true → r = true) :
    (strLeB x z && (!(strLeB z x) || r)) = true := by
  rcases lexB_iff.mp h1 with hlt1 | ⟨heq1, hp⟩ <;>
    rcases lexB_iff.mp h2 with hlt2 | ⟨heq2, hq⟩
  · exact lexB_iff.mpr (Or.inl (strLtB_trans hlt1 hlt2))
  · exact lexB_iff.mpr (Or.inl (heq2 ▸ hlt1))
  · exact lexB_iff.mpr (Or.inl (heq1 ▸ hlt2))
  · exact lexB_iff.mpr (Or.inr ⟨heq1.trans heq2, hpqr hp hq⟩)

theorem pinfoKeyLe_total (a b : ProjectFileInfo) :
    LocalFS.pinfoKeyLe a b = true ∨ LocalFS.pinfoKeyLe b a = true := by
  unfold LocalFS.pinfoKeyLe
  exact lexB_total _ _ _ _ (lexB_total _ _ _ _ (strLeB_total _ _))

theorem pinfoKeyLe_trans {a b c : ProjectFileInfo}
    (h1 : LocalFS.pinfoKeyLe a b = true) (h2 : LocalFS.pinfoKeyLe b c = true) :
    LocalFS.pinfoKeyLe a c = true := by
  unfold LocalFS.pinfoKeyLe at h1 h2 ⊢
  exact lexB_trans h1 h2 (fun hp hq => lexB_trans hp hq (fun hp2 hq2 =>
    strLeB_trans hp2 hq2))

theorem LocalFS.listFiles_project_name (s : LFSState) (pn : Str) :
    ∀ e ∈ LocalFS.listFilesForProject s pn, e.project_name = pn := by
  intro e he
  unfold LocalFS.listFilesForProject at he
  by_cases hc : s.projDirs.contains pn = true
  · rw [if_pos hc] at he
    obtain ⟨pv, hpv, hmap⟩ := List.mem_flatMap.mp (mem_sortByLe.mp he)
    obtain ⟨f, hf, hfe⟩ := List.mem_map.mp hmap
    rw [← hfe]
  · rw [if_neg hc] at he
    simp at he

/-- **C7** — counterexample to the claim as stated: on the object storage
backend with versions `1.0` and `1.0.1` (one a proper prefix of the
other), the listing is ordered by full blob name, which puts version
`1.0.1` before version `1.0` (`'.' < '/'`), violating ascending
`(version, filename)` order. -/
theorem c7_ordering_cex :
    Azure.listFilesForProject
        (Azure.uploadFile wPrims true
          (Azure.uploadFile wPrims true azEmpty (str "") (str "p") (str "1.0")
            (str "z.whl") [9] none).2
          (str "") (str "p") (str "1.0.1") (str "a.whl") [8] none).2
        (str "") (str "p") =
      Except.ok [⟨str "p", str "1.0.1", str "a.whl", 1⟩,
        ⟨str "p", str "1.0", str "z.whl", 1⟩] ∧
    strLtB (str "1.0") (str "1.0.1") = true := ⟨rfl, by decide⟩

/-- Order transport for `entriesOf`: blobs listed under the project's name
path segment, pairwise ordered by full blob name, give entries pairwise
ordered by the string `version ++ "/" ++ filename`. -/
theorem entriesOf_pairwise {namePre pn : Str} :
    ∀ {bl : List Blob} {l : List ProjectFileInfo},
      Azure.entriesOf namePre pn bl = Except.ok l →
      (∀ b ∈ bl, startsB b.name namePre = true) →
      bl.Pairwise (fun a b => strLeB a.name b.name = true) →
      l.Pairwise (fun a b =>
        strLeB (a.version ++ '/' :: a.filename)
          (b.version ++ '/' :: b.filename) = true) := by
  intro bl
  induction bl with
  | nil =>
    intro l h _ _
    rw [Azure.entriesOf] at h
    injection h with h
    rw [← h]
    exact List.Pairwise.nil
  | cons b bl2 ih =>
    intro l h hstart hpair
    rw [Azure.entriesOf] at h
    cases hsp : splitSlash (dropPre b.name namePre) with
    | none => rw [hsp] at h; simp at h
    | some pr =>
      rw [hsp] at h
      cases hrec : Azure.entriesOf namePre pn bl2 with
      | error u => rw [hrec] at h; simp [Except.map] at h
      | ok l2 =>
        rw [hrec] at h
        simp only [Except.map] at h
        injection h with h
        rw [← h]
        rcases List.pairwise_cons.mp hpair with ⟨hhead, htail⟩
        refine List.pairwise_cons.mpr ⟨?_, ih hrec
          (fun x hx => hstart x (List.mem_cons_of_mem b hx)) htail⟩
        intro e2 he2
        obtain ⟨b2, hb2, ver2, rest2, hsp2, he2e⟩ := entriesOf_ok_forall hrec e2 he2
        obtain ⟨t1, ht1⟩ := exists_of_startsB (hstart b (List.mem_cons_self b bl2))
        obtain ⟨t2, ht2⟩ := exists_of_startsB
          (hstart b2 (List.mem_cons_of_mem b hb2))
        rw [ht1, dropPre_append] at hsp
        rw [ht2, dropPre_append] at hsp2
        obtain ⟨hteq1, _⟩ := splitSlash_eq hsp
        obtain ⟨hteq2, _⟩ := splitSlash_eq hsp2
        have hle := hhead b2 hb2
        rw [ht1, ht2, hteq1, hteq2, strLeB_append_same] at hle
        rw [he2e]
        exact hle

/-- **C7** — amended: the local filesystem backend's listing is sorted
ascending by the `(version, filename)` pair; the object storage backend's
listing is sorted ascending by the string `version ++ "/" ++ filename`
(the tail of the full blob name it actually sorts by), which agrees with
`(version, filename)` pair order unless one version string is a proper
prefix of another (see the counterexample). -/
theorem c7_ordering_amended (s : LFSState) (az : AzState) (base pn : Str) :
    (LocalFS.listFilesForProject s pn).Pairwise (fun a b =>
      (strLeB a.version b.version &&
        (!(strLeB b.version a.version) || strLeB a.filename b.filename)) = true) ∧
    (∀ l, Azure.listFilesForProject az base pn = Except.ok l →
      l.Pairwise (fun a b =>
        strLeB (a.version ++ '/' :: a.filename)
          (b.version ++ '/' :: b.filename) = true)) := by
  constructor
  · have hsorted : (LocalFS.listFilesForProject s pn).Pairwise
        (fun a b => LocalFS.pinfoKeyLe a b = true) := by
      unfold LocalFS.listFilesForProject
      by_cases hc : s.projDirs.contains pn = true
      · rw [if_pos hc]
        apply sorted_sortByLe
        · intro x y z h1 h2
          exact pinfoKeyLe_trans h1 h2
        · intro x y
          exact pinfoKeyLe_total x y
      · rw [if_neg hc]
        exact List.Pairwise.nil
    refine List.Pairwise.imp_of_mem ?_ hsorted
    intro a b ha hb hab
    have hpa := LocalFS.listFiles_project_name s pn a ha
    have hpb := LocalFS.listFiles_project_name s pn b hb
    unfold LocalFS.pinfoKeyLe at hab
    rw [hpa, hpb] at hab
    simp only [strLeB, strLtB_irrefl, Bool.not_false, Bool.true_and,
      Bool.not_true, Bool.false_or] at hab
    exact hab
  · intro l hl
    unfold Azure.listFilesForProject at hl
    refine entriesOf_pairwise hl ?_ ?_
    · intro b hb
      exact (List.mem_filter.mp (mem_sortByLe.mp (List.mem_filter.mp hb).1)).2
    · have hs : (sortByLe (fun a b : Blob => strLeB a.name b.name)
          (az.blobs.filter (fun b =>
            startsB b.name (base ++ pn ++ str "/")))).Pairwise
          (fun a b => strLeB a.name b.name = true) := by
        apply sorted_sortByLe
        · intro x y z h1 h2
          exact strLeB_trans h1 h2
        · intro x y
          exact strLeB_total x.name y.name
      exact List.Pairwise.filter _ hs

/-- Witness for the amended C7, extracted at concrete two-entry stores. -/
theorem c7_ordering_amended_witness :
    (strLeB (str "1.0") (str "2.0") &&
      (!(strLeB (str "2.0") (str "1.0")) ||
        strLeB (str "a.whl") (str "z.whl"))) = true ∧
    strLeB (str "1.0" ++ '/' :: str "a.whl")
      (str "2.0" ++ '/' :: str "z.whl") = true := by
  have h := c7_ordering_amended
    ⟨[str "p"], [(str "p", str "1.0"), (str "p", str "2.0")],
      [⟨str "p", str "1.0", str "a.whl", [3]⟩,
        ⟨str "p", str "2.0", str "z.whl", [4]⟩]⟩
    ⟨[⟨str "b/p/1.0/a.whl", [3], none⟩, ⟨str "b/p/2.0/z.whl", [4], none⟩]⟩
    (str "b/") (str "p")
  have h1 := (List.pairwise_cons.mp (show
      (LocalFS.listFilesForProject
        ⟨[str "p"], [(str "p", str "1.0"), (str "p", str "2.0")],
          [⟨str "p", str "1.0", str "a.whl", [3]⟩,
            ⟨str "p", str "2.0", str "z.whl", [4]⟩]⟩ (str "p")).Pairwise
        (fun a b => (strLeB a.version b.version &&
          (!(strLeB b.version a.version) ||
            strLeB a.filename b.filename)) = true) from h.1)).1
    ⟨str "p", str "2.0", str "z.whl", 1⟩ (by decide)
  have h2 := (List.pairwise_cons.mp (h.2
      [⟨str "p", str "1.0", str "a.whl", 1⟩, ⟨str "p", str "2.0", str "z.whl", 1⟩]
      rfl)).1 ⟨str "p", str "2.0", str "z.whl", 1⟩ (by decide)
  exact ⟨h1, h2⟩
